import Mathlib

/-!
Verification development for the burncloud-download task orchestrator.

The definitions below are a shallow embedding of the Rust sources:
  * `src/types/status.rs`, `src/types/task.rs`, `src/types/progress.rs`
  * `src/models/task_status.rs`, `src/models/duplicate_policy.rs`,
    `src/models/duplicate_reason.rs`, `src/models/duplicate_result.rs`
  * `src/error/types.rs`
  * `src/queue/manager.rs` (TaskQueueManager)
  * `src/utils/url_normalization.rs` (normalize_url)
  * `src/manager/persistent_aria2.rs` (restore_tasks / restore_single_task)

Modelling conventions:
  * `TaskId` (a v4 UUID in the source) is modelled as `Nat`; freshness of
    `TaskId::new` is modelled by a counter (`next_id`) in the manager state.
  * `SystemTime` timestamps (`created_at`, `updated_at`) carry no information
    used by any verified property and are omitted from the task record.
  * Rust `HashMap`s are modelled as association lists with the usual
    replace-on-insert semantics; `VecDeque` as a `List` (push_back = append,
    pop_front = head).
  * Operations whose Rust signature is `Result<..>` but in which every path
    returns `Ok` are modelled as total functions; genuinely fallible
    operations return `Except DownloadError _`.
  * Event handlers only observe state transitions and never influence them;
    the notification calls are therefore not part of the state model.
-/

namespace Burncloud

/-- `DownloadStatus` from `src/types/status.rs`. -/
inductive DownloadStatus where
  | Waiting
  | Downloading
  | Paused
  | Completed
  | Failed (reason : String)
deriving DecidableEq, Repr

namespace DownloadStatus

/-- `DownloadStatus::is_active`. -/
def is_active : DownloadStatus → Bool
  | .Downloading => true
  | _ => false

/-- `DownloadStatus::is_finished`. -/
def is_finished : DownloadStatus → Bool
  | .Completed => true
  | .Failed _ => true
  | _ => false

/-- `DownloadStatus::can_resume`. -/
def can_resume : DownloadStatus → Bool
  | .Paused => true
  | .Failed _ => true
  | _ => false

/-- `DownloadStatus::can_pause`. -/
def can_pause : DownloadStatus → Bool
  | .Downloading => true
  | .Waiting => true
  | _ => false

end DownloadStatus

/-- `DownloadTask` from `src/types/task.rs` (timestamps omitted, see header). -/
structure DownloadTask where
  id : Nat
  url : String
  target_path : String
  status : DownloadStatus
deriving DecidableEq, Repr

/-- `DownloadTask::new`: a fresh task starts in status `Waiting`. -/
def DownloadTask.mkNew (id : Nat) (url target_path : String) : DownloadTask :=
  { id := id, url := url, target_path := target_path, status := .Waiting }

/-- `DownloadProgress` from `src/types/progress.rs`.  The `f64` fields of the
source are byte counts and rates; the percentage computation is modelled
over `ℚ` (exact for the verified structural properties). -/
structure DownloadProgress where
  downloaded_bytes : Nat
  total_bytes : Option Nat
  speed_bps : Nat
  eta_seconds : Option Nat
deriving DecidableEq, Repr

/-- `DownloadProgress::new`. -/
def DownloadProgress.mkNew : DownloadProgress :=
  { downloaded_bytes := 0, total_bytes := none, speed_bps := 0, eta_seconds := none }

/-- `DownloadProgress::completion_percentage`: `total_bytes.map`, with the
zero-total branch returning the literal 100 without dividing. -/
def DownloadProgress.completion_percentage (p : DownloadProgress) : Option ℚ :=
  p.total_bytes.map (fun total =>
    if total = 0 then 100
    else ((p.downloaded_bytes : ℚ) / (total : ℚ)) * 100)

/-- `TaskStatus` from `src/models/task_status.rs`. -/
inductive TaskStatus where
  | Waiting
  | Downloading
  | Paused
  | Completed
  | Failed (msg : String)
  | Duplicate (original : Nat)
deriving DecidableEq, Repr

/-- `TaskStatus::from_download_status`. -/
def TaskStatus.from_download_status : DownloadStatus → TaskStatus
  | .Waiting => .Waiting
  | .Downloading => .Downloading
  | .Paused => .Paused
  | .Completed => .Completed
  | .Failed msg => .Failed msg

/-- `DuplicatePolicy` from `src/models/duplicate_policy.rs`. -/
inductive DuplicatePolicy where
  | ReuseExisting
  | AllowDuplicate
  | PromptUser
  | ReuseIfComplete
  | ReuseIfIncomplete
  | FailIfDuplicate
deriving DecidableEq, Repr

/-- `DuplicatePolicy::default()` is `ReuseExisting`. -/
def DuplicatePolicy.default : DuplicatePolicy := .ReuseExisting

/-- `DuplicatePolicy::allows_reuse`. -/
def DuplicatePolicy.allows_reuse : DuplicatePolicy → TaskStatus → Bool
  | .ReuseExisting, _ => true
  | .AllowDuplicate, _ => false
  | .PromptUser, _ => false
  | .ReuseIfComplete, st => st = .Completed
  | .ReuseIfIncomplete, st =>
      match st with
      | .Waiting => true
      | .Downloading => true
      | .Paused => true
      | .Failed _ => true
      | _ => false
  | .FailIfDuplicate, _ => false

/-- `DuplicatePolicy::should_fail_on_duplicate`. -/
def DuplicatePolicy.should_fail_on_duplicate : DuplicatePolicy → Bool
  | .FailIfDuplicate => true
  | _ => false

/-- `DuplicateReason` from `src/models/duplicate_reason.rs` (variant used by
the queue manager). -/
inductive DuplicateReason where
  | UrlAndPath
  | FileContent
  | UrlOnly
deriving DecidableEq, Repr

/-- `DuplicateResult` from `src/models/duplicate_result.rs` (variants reachable
from `TaskQueueManager::add_download_with_policy`). -/
inductive DuplicateResult where
  | NewTask (task_id : Nat)
  | ExistingTask (task_id : Nat) (status : TaskStatus) (reason : DuplicateReason)
deriving DecidableEq, Repr

/-- `DownloadError` from `src/error/types.rs` (variants used here; `General`
stands for the `anyhow::bail!` string errors of the queue manager). -/
inductive DownloadError where
  | TaskNotFound (id : Nat)
  | PolicyViolation (task_id : Nat) (reason : String)
  | General (msg : String)
deriving DecidableEq, Repr

/-! ### Association-list model of `HashMap` -/

/-- `HashMap::insert`: replace the binding in place if the key is present,
append otherwise. -/
def insertA {α : Type} (k : Nat) (v : α) (l : List (Nat × α)) : List (Nat × α) :=
  if l.any (fun p => p.1 = k) then
    l.map (fun p => if p.1 = k then (k, v) else p)
  else
    l ++ [(k, v)]

/-- `HashMap::remove`. -/
def removeA {α : Type} (k : Nat) (l : List (Nat × α)) : List (Nat × α) :=
  l.filter (fun p => p.1 ≠ k)

/-- `HashMap::get`. -/
def lookupA {α : Type} (k : Nat) (l : List (Nat × α)) : Option α :=
  (l.find? (fun p => p.1 = k)).map (fun p => p.2)

/-! ### `TaskQueueManager` (src/queue/manager.rs) -/

/-- `MAX_CONCURRENT_DOWNLOADS` from `src/queue/manager.rs`. -/
def MAX_CONCURRENT_DOWNLOADS : Nat := 3

/-- The state of a `TaskQueueManager` (the event-handler list is omitted,
see the header).  `next_id` models the fresh-UUID source of `TaskId::new`. -/
structure TaskQueueManager where
  active_tasks : List (Nat × DownloadTask)
  queued_tasks : List DownloadTask
  all_tasks : List (Nat × DownloadTask)
  progress : List (Nat × DownloadProgress)
  next_id : Nat
deriving DecidableEq, Repr

namespace TaskQueueManager

/-- `TaskQueueManager::new`. -/
def mkNew : TaskQueueManager :=
  { active_tasks := [], queued_tasks := [], all_tasks := [], progress := [], next_id := 0 }

/-- `TaskQueueManager::add_task`. -/
def add_task (m : TaskQueueManager) (url target_path : String) : Nat × TaskQueueManager :=
  let task := DownloadTask.mkNew m.next_id url target_path
  let task_id := task.id
  let active_count := m.active_tasks.length
  if active_count < MAX_CONCURRENT_DOWNLOADS then
    let task := { task with status := .Downloading }
    (task_id,
      { m with
        active_tasks := insertA task_id task m.active_tasks
        all_tasks := insertA task_id task m.all_tasks
        next_id := m.next_id + 1 })
  else
    (task_id,
      { m with
        queued_tasks := m.queued_tasks ++ [task]
        all_tasks := insertA task_id task m.all_tasks
        next_id := m.next_id + 1 })

/-- `TaskQueueManager::try_start_next_queued_task`.  Its Rust signature is
`Result<()>` but every path returns `Ok`, so it is modelled as total. -/
def try_start_next_queued_task (m : TaskQueueManager) : TaskQueueManager :=
  if m.active_tasks.length ≥ MAX_CONCURRENT_DOWNLOADS then m
  else
    match m.queued_tasks with
    | [] => m
    | task :: rest =>
      let task := { task with status := DownloadStatus.Downloading }
      { m with
        queued_tasks := rest
        all_tasks := insertA task.id task m.all_tasks
        active_tasks := insertA task.id task m.active_tasks }

/-- `TaskQueueManager::update_progress`. -/
def update_progress (m : TaskQueueManager) (task_id : Nat) (p : DownloadProgress) :
    Except DownloadError TaskQueueManager :=
  if (lookupA task_id m.all_tasks).isNone then
    .error (.TaskNotFound task_id)
  else
    .ok { m with progress := insertA task_id p m.progress }

/-- `TaskQueueManager::get_progress`. -/
def get_progress (m : TaskQueueManager) (task_id : Nat) :
    Except DownloadError DownloadProgress :=
  if (lookupA task_id m.all_tasks).isNone then
    .error (.TaskNotFound task_id)
  else
    .ok ((lookupA task_id m.progress).getD DownloadProgress.mkNew)

/-- `TaskQueueManager::pause_task`. -/
def pause_task (m : TaskQueueManager) (task_id : Nat) :
    Except DownloadError TaskQueueManager :=
  match lookupA task_id m.all_tasks with
  | none => .error (.TaskNotFound task_id)
  | some task =>
    if ¬ task.status.can_pause then
      .error (.General "Task cannot be paused in current status")
    else
      let task := { task with status := DownloadStatus.Paused }
      let m := { m with all_tasks := insertA task_id task m.all_tasks }
      let m := { m with active_tasks := removeA task_id m.active_tasks }
      .ok (try_start_next_queued_task m)

/-- `TaskQueueManager::resume_task`. -/
def resume_task (m : TaskQueueManager) (task_id : Nat) :
    Except DownloadError TaskQueueManager :=
  match lookupA task_id m.all_tasks with
  | none => .error (.TaskNotFound task_id)
  | some task =>
    if ¬ task.status.can_resume then
      .error (.General "Task cannot be resumed in current status")
    else
      if m.active_tasks.length < MAX_CONCURRENT_DOWNLOADS then
        let task := { task with status := DownloadStatus.Downloading }
        .ok { m with
              all_tasks := insertA task_id task m.all_tasks
              active_tasks := insertA task_id task m.active_tasks }
      else
        let task := { task with status := DownloadStatus.Waiting }
        .ok { m with
              all_tasks := insertA task_id task m.all_tasks
              queued_tasks := m.queued_tasks ++ [task] }

/-- The state transformation of `TaskQueueManager::cancel_task` (which always
returns `Ok`): remove the id from every collection, then promote. -/
def cancel_state (m : TaskQueueManager) (task_id : Nat) : TaskQueueManager :=
  let m := { m with
             all_tasks := removeA task_id m.all_tasks
             active_tasks := removeA task_id m.active_tasks
             queued_tasks := m.queued_tasks.filter (fun t => t.id ≠ task_id) }
  try_start_next_queued_task m

/-- `TaskQueueManager::cancel_task` with its `Result<()>` signature. -/
def cancel_task (m : TaskQueueManager) (task_id : Nat) :
    Except DownloadError TaskQueueManager :=
  .ok (cancel_state m task_id)

/-- `TaskQueueManager::get_task`. -/
def get_task (m : TaskQueueManager) (task_id : Nat) : Except DownloadError DownloadTask :=
  match lookupA task_id m.all_tasks with
  | some t => .ok t
  | none => .error (.TaskNotFound task_id)

/-- `TaskQueueManager::list_tasks` (values of the all-tasks map). -/
def list_tasks (m : TaskQueueManager) : List DownloadTask :=
  m.all_tasks.map (fun p => p.2)

/-- `TaskQueueManager::active_download_count`. -/
def active_download_count (m : TaskQueueManager) : Nat :=
  m.active_tasks.length

/-- `TaskQueueManager::complete_task` (always `Ok` in the source). -/
def complete_task (m : TaskQueueManager) (task_id : Nat) : TaskQueueManager :=
  let m :=
    match lookupA task_id m.all_tasks with
    | some task =>
      { m with all_tasks := insertA task_id { task with status := .Completed } m.all_tasks }
    | none => m
  let m := { m with active_tasks := removeA task_id m.active_tasks }
  try_start_next_queued_task m

/-- `TaskQueueManager::fail_task` (always `Ok` in the source). -/
def fail_task (m : TaskQueueManager) (task_id : Nat) (error : String) : TaskQueueManager :=
  let m :=
    match lookupA task_id m.all_tasks with
    | some task =>
      { m with all_tasks := insertA task_id { task with status := .Failed error } m.all_tasks }
    | none => m
  let m := { m with active_tasks := removeA task_id m.active_tasks }
  try_start_next_queued_task m

/-- `TaskQueueManager::find_duplicate_task`: scans `all_tasks` comparing the
raw URL string and the target path. -/
def find_duplicate_task (m : TaskQueueManager) (url target_path : String) : Option Nat :=
  (m.all_tasks.find? (fun p => p.2.url = url ∧ p.2.target_path = target_path)).map
    (fun p => p.2.id)

/-- `TaskQueueManager::add_download_with_policy`. -/
def add_download_with_policy (m : TaskQueueManager) (url target_path : String)
    (policy : DuplicatePolicy) : Except DownloadError (DuplicateResult × TaskQueueManager) :=
  match find_duplicate_task m url target_path with
  | some existing_task_id =>
    match lookupA existing_task_id m.all_tasks with
    | none => .error (.TaskNotFound existing_task_id)
    | some task =>
      if policy.allows_reuse (TaskStatus.from_download_status task.status) then
        .ok (.ExistingTask existing_task_id
          (TaskStatus.from_download_status task.status) .UrlAndPath, m)
      else if policy.should_fail_on_duplicate then
        .error (.PolicyViolation existing_task_id "Duplicate found but policy forbids reuse")
      else
        let r := add_task m url target_path
        .ok (.NewTask r.1, r.2)
  | none =>
    let r := add_task m url target_path
    .ok (.NewTask r.1, r.2)

end TaskQueueManager

/-! ### URL normalization (src/utils/url_normalization.rs)

`normalize_url` delegates parsing and serialization to the `url` crate
(a WHATWG URL implementation).  The embedding below models the fragment of
that crate exercised by http/https URLs made of ASCII characters from the
safe sets below: hosts already in lowercase ASCII, paths without
dot-segments or characters needing percent-encoding, queries over the
non-escaped query character set.  Inputs outside this fragment are rejected
by `parseUrl` (the source would first transform them).  As in the crate,
parsing itself strips default ports and percent-decoding maps a `+` to a
space before resolving `%XX` escapes. -/

/-- Characters accepted in a (already lowercased) host. -/
def hostChar (c : Char) : Bool :=
  c.isLower || c.isDigit || c = '.' || c = '-'

/-- Characters the `url` crate keeps verbatim in a path. -/
def pathChar (c : Char) : Bool :=
  c.isAlphanum || c = '/' || c = '.' || c = '-' || c = '_' || c = '~'

/-- Characters the `url` crate keeps verbatim in a query (the complement of
its QUERY percent-encode set, restricted to printable ASCII). -/
def queryChar (c : Char) : Bool :=
  c.isAlphanum || "-_.~!$&()*+,;=:@/?%".data.contains c

/-- Split a character list on a separator, keeping empty pieces. -/
def splitOnChar (sep : Char) : List Char → List (List Char)
  | [] => [[]]
  | c :: rest =>
    if c = sep then [] :: splitOnChar sep rest
    else
      match splitOnChar sep rest with
      | [] => [[c]]
      | h :: t => (c :: h) :: t

/-- Whether a path contains a `.` or `..` segment (which the `url` crate
would resolve away; such paths are outside the modelled fragment). -/
def hasDotSegment (p : List Char) : Bool :=
  (splitOnChar '/' p).any (fun seg => seg == ['.'] || seg == ['.', '.'])

/-- Longest prefix whose characters all fail `p`, together with the rest. -/
def takeUntil (p : Char → Bool) : List Char → List Char × List Char
  | [] => ([], [])
  | c :: cs =>
    if p c then ([], c :: cs)
    else
      let r := takeUntil p cs
      (c :: r.1, r.2)

/-- Hexadecimal digit test (both cases), as in percent-decoding. -/
def isHexDigit (c : Char) : Bool :=
  c.isDigit || ('a' ≤ c ∧ c ≤ 'f') || ('A' ≤ c ∧ c ≤ 'F')

/-- Value of a hexadecimal digit. -/
def hexVal (c : Char) : Nat :=
  if c.isDigit then c.toNat - 48
  else if 'a' ≤ c ∧ c ≤ 'f' then c.toNat - 87
  else c.toNat - 55

/-- Percent-decoding as in `percent_encoding::percent_decode`: a valid `%XX`
escape becomes the character with that code, anything else is literal.
(Escapes at or above 0x80 decode bytewise in the source; the modelled
fragment only exercises ASCII codes.) -/
def percentDecode : List Char → List Char
  | [] => []
  | '%' :: c1 :: c2 :: rest =>
    if isHexDigit c1 && isHexDigit c2 then
      Char.ofNat (hexVal c1 * 16 + hexVal c2) :: percentDecode rest
    else
      '%' :: percentDecode (c1 :: c2 :: rest)
  | c :: rest => c :: percentDecode rest

/-- The `+`-to-space step of `form_urlencoded` decoding. -/
def plusToSpace (l : List Char) : List Char :=
  l.map (fun c => if c = '+' then ' ' else c)

/-- Full `form_urlencoded` piece decoding. -/
def decodePiece (l : List Char) : List Char :=
  percentDecode (plusToSpace l)

/-- Split a piece at its first `=` (absent `=` gives an empty value), as in
`form_urlencoded`. -/
def splitEqChar (piece : List Char) : List Char × List Char :=
  let r := takeUntil (fun c => c = '=') piece
  (r.1, r.2.tail)

/-- `Url::query_pairs`: split on `&`, skip empty pieces, split each piece at
its first `=`, decode both sides. -/
def queryPairs (q : List Char) : List (List Char × List Char) :=
  ((splitOnChar '&' q).filter (fun piece => !piece.isEmpty)).map
    (fun piece =>
      let kv := splitEqChar piece
      (decodePiece kv.1, decodePiece kv.2))

/-- `format!("{}={}", k, v)` joined with `&`, as in the source's
`sorted_query` construction. -/
def joinPairs : List (List Char × List Char) → List Char
  | [] => []
  | [kv] => kv.1 ++ '=' :: kv.2
  | kv :: rest => kv.1 ++ '=' :: kv.2 ++ '&' :: joinPairs rest

/-- Uppercase hexadecimal digit, as emitted by `percent_encoding`. -/
def hexDigitUpper (n : Nat) : Char :=
  if n < 10 then Char.ofNat (48 + n) else Char.ofNat (55 + n)

/-- `Url::set_query` percent-encodes exactly the QUERY set: space, double
quote, `#`, `<`, `>`, plus the apostrophe for special (http/https) schemes. -/
def queryEncodeChar (c : Char) : List Char :=
  if c = ' ' || c = Char.ofNat 34 || c = '#' || c = '<' || c = '>' || c = Char.ofNat 39 then
    ['%', hexDigitUpper (c.toNat / 16), hexDigitUpper (c.toNat % 16)]
  else [c]

/-- Encoding applied by `Url::set_query` to the rebuilt query string. -/
def encodeQuery (l : List Char) : List Char :=
  l.foldr (fun c acc => queryEncodeChar c ++ acc) []

/-- Byte-lexicographic order on decoded strings (UTF-8 byte order and
code-point order agree), as used by `Vec::<(String, String)>::sort`. -/
def lexLe : List Char → List Char → Bool
  | [], _ => true
  | _ :: _, [] => false
  | a :: as, b :: bs =>
    if a.toNat < b.toNat then true
    else if a.toNat = b.toNat then lexLe as bs
    else false

/-- The `Ord` instance of `(String, String)`: first component, then second. -/
def pairLe (x y : List Char × List Char) : Bool :=
  if x.1 = y.1 then lexLe x.2 y.2 else lexLe x.1 y.1

/-- `pairLe` as a relation, for `List.insertionSort`. -/
def PairLe (x y : List Char × List Char) : Prop := pairLe x y = true

instance : DecidableRel PairLe := fun x y => by
  unfold PairLe
  infer_instance

/-- The parsed representation kept by the `url` crate for the modelled
fragment: scheme, lowercase host, non-default port, path, query, fragment. -/
structure ParsedUrl where
  scheme : String
  host : List Char
  port : Option Nat
  path : List Char
  query : Option (List Char)
  fragment : Option (List Char)
deriving DecidableEq, Repr

/-- Decimal digit characters back to a number (ports). -/
def charsToNat (l : List Char) : Nat :=
  l.foldl (fun a c => a * 10 + (c.toNat - 48)) 0

/-- Decimal rendering of a number (ports). -/
def natToChars (n : Nat) : List Char :=
  if n = 0 then ['0'] else ((Nat.digits 10 n).map Nat.digitChar).reverse

/-- Port parsing: `u16` range check, then default-port stripping exactly as
the `url` crate does during parsing (port 80 for http, 443 for https). -/
def parsePort (scheme : String) : List Char → Option (Option Nat)
  | [] => some none
  | ':' :: ds =>
    if !ds.isEmpty && ds.all Char.isDigit then
      let p := charsToNat ds
      if p ≥ 65536 then none
      else if (scheme = "http" ∧ p = 80) ∨ (scheme = "https" ∧ p = 443) then some none
      else some (some p)
    else none
  | _ => none

/-- Path extraction: an explicit path runs to `?` or `#`; an absent path
becomes `/` (special-scheme behaviour of the crate). -/
def parsePath (r1 : List Char) : List Char × List Char :=
  match r1 with
  | '/' :: _ => takeUntil (fun c => c = '?' || c = '#') r1
  | _ => (['/'], r1)

/-- Query and fragment extraction after the path. -/
def parseTail (scheme : String) (host : List Char) (port : Option Nat)
    (path r2 : List Char) : Option ParsedUrl :=
  match r2 with
  | [] => some ⟨scheme, host, port, path, none, none⟩
  | '?' :: qrest =>
    match takeUntil (fun c => c = '#') qrest with
    | (q, r3) =>
      if !q.all queryChar then none
      else
        match r3 with
        | [] => some ⟨scheme, host, port, path, some q, none⟩
        | '#' :: f => some ⟨scheme, host, port, path, some q, some f⟩
        | _ => none
  | '#' :: f => some ⟨scheme, host, port, path, none, some f⟩
  | _ => none

/-- Parsing after the `scheme://` prefix: authority up to `/`, `?` or `#`,
host/port split at `:`, then path, query and fragment. -/
def parseAfterScheme (scheme : String) (rest : List Char) : Option ParsedUrl :=
  match takeUntil (fun c => c = '/' || c = '?' || c = '#') rest with
  | (auth, r1) =>
    match takeUntil (fun c => c = ':') auth with
    | (host, portPart) =>
      if host.isEmpty || !host.all hostChar then none
      else
        match parsePort scheme portPart with
        | none => none
        | some port =>
          match parsePath r1 with
          | (path, r2) =>
            if !path.all pathChar || hasDotSegment path then none
            else parseTail scheme host port path r2

/-- `Url::parse` on the modelled fragment (http/https only). -/
def parseUrl (l : List Char) : Option ParsedUrl :=
  if "https://".data.isPrefixOf l then parseAfterScheme "https" (l.drop 8)
  else if "http://".data.isPrefixOf l then parseAfterScheme "http" (l.drop 7)
  else none

/-- Serialized port part (`:p` or empty). -/
def portL : Option Nat → List Char
  | none => []
  | some p => ':' :: natToChars p

/-- Serialized query part (`?q` or empty). -/
def qtailL : Option (List Char) → List Char
  | none => []
  | some q => '?' :: q

/-- Serialized fragment part (`#f` or empty). -/
def ftailL : Option (List Char) → List Char
  | none => []
  | some f => '#' :: f

/-- `Url::as_str`/`to_string` for the modelled fragment. -/
def serializeUrl (u : ParsedUrl) : List Char :=
  u.scheme.data ++ ':' :: '/' :: '/' ::
    (u.host ++ (portL u.port ++ (u.path ++ (qtailL u.query ++ ftailL u.fragment))))

/-- The record transformation inside `normalize_url`: drop the fragment,
drop default ports, sort the decoded query pairs and re-set the query. -/
def normalizeParsed (input : ParsedUrl) : ParsedUrl :=
  let parsed := { input with fragment := none }
  let parsed :=
    if (parsed.scheme = "http" ∧ parsed.port = some 80) ∨
       (parsed.scheme = "https" ∧ parsed.port = some 443) then
      { parsed with port := none }
    else parsed
  match parsed.query with
  | some q =>
    let params := List.insertionSort PairLe (queryPairs q)
    if params ≠ [] then
      { parsed with query := some (encodeQuery (joinPairs params)) }
    else
      { parsed with query := none }
  | none => parsed

/-- `normalize_url` from `src/utils/url_normalization.rs`: parse, drop the
fragment, drop default ports, sort decoded query pairs and re-set the
query, serialize. -/
def normalize_url (input_url : String) : Except String String :=
  match parseUrl input_url.data with
  | none => .error ("Failed to parse URL: " ++ input_url)
  | some parsed => .ok (String.mk (serializeUrl (normalizeParsed parsed)))

/-! ### Startup recovery (src/manager/persistent_aria2.rs)

`restore_tasks` drives two external collaborators: the aria2 transfer
manager and the database repository.  They are modelled as an oracle
(`Aria2Env`) supplying the results of the three adapter calls the recovery
path makes; the repository's `list_tasks` result is the input list and its
`save_task` calls are collected in the result.  The result additionally
records, per processed task, whether the adapter was invoked (`submitted`),
which is determined by the recovery code itself. -/

/-- Oracle for the adapter calls made during recovery. -/
structure Aria2Env where
  addDownload : String → String → Except String Nat
  getTask : Nat → Except String DownloadTask
  pauseDownload : Nat → Except String Unit

/-- `PersistentAria2Manager::restore_single_task`: re-add the download, look
the restored task up to obtain its GID (stringified task id in the source),
re-apply the pause when the persisted status was `Paused`, return the GID.
Each `?`-propagated failure is an explicit `match`. -/
def restore_single_task (env : Aria2Env) (task : DownloadTask) : Except String String :=
  match env.addDownload task.url task.target_path with
  | .error e => .error e
  | .ok restored_id =>
    match env.getTask restored_id with
    | .error e => .error e
    | .ok _ =>
      let gid := toString restored_id
      if task.status = DownloadStatus.Paused then
        match env.pauseDownload restored_id with
        | .error e => .error e
        | .ok _ => .ok gid
      else .ok gid

/-- Observable outcome of `restore_tasks`: GID mapping entries stored,
tasks saved back as failed, and ids for which the adapter was invoked.
(Collected in reverse iteration order; the source stores the first two in a
`HashMap` and the database, where order is immaterial.) -/
structure RestoreResult where
  task_mapping : List (Nat × String)
  saved_failed : List DownloadTask
  submitted : List Nat
deriving DecidableEq, Repr

/-- `PersistentAria2Manager::restore_tasks`: skip finished tasks; restore
the rest, storing the new GID on success and saving the task back with
status `Failed("Recovery failed: <detail>")` on error. -/
def restore_tasks (env : Aria2Env) : List DownloadTask → RestoreResult
  | [] => ⟨[], [], []⟩
  | task :: rest =>
    if task.status.is_finished then restore_tasks env rest
    else
      let r := restore_tasks env rest
      match restore_single_task env task with
      | .ok gid =>
        ⟨(task.id, gid) :: r.task_mapping, r.saved_failed, task.id :: r.submitted⟩
      | .error e =>
        ⟨r.task_mapping,
         { task with status := .Failed ("Recovery failed: " ++ e) } :: r.saved_failed,
         task.id :: r.submitted⟩

/-! ### Association-list lemmas -/

theorem lookupA_eq_none_iff {α : Type} (k : Nat) (l : List (Nat × α)) :
    lookupA k l = none ↔ ∀ p ∈ l, p.1 ≠ k := by
  unfold lookupA
  induction l with
  | nil => simp
  | cons hd tl ih =>
    by_cases h : hd.1 = k
    · simp [List.find?, h]
    · simpa [List.find?, h] using ih

theorem lookupA_insertA_self {α : Type} (k : Nat) (v : α) (l : List (Nat × α)) :
    lookupA k (insertA k v l) = some v := by
  unfold insertA
  by_cases h : l.any (fun p => p.1 = k) = true
  · simp only [h, if_true]
    unfold lookupA
    induction l with
    | nil => simp at h
    | cons hd tl ih =>
      by_cases hh : hd.1 = k
      · simp [List.find?, hh]
      · simp only [List.any_cons, Bool.or_eq_true, decide_eq_true_eq] at h
        rcases h with h | h
        · exact absurd h hh
        · simpa [List.find?, hh] using ih h
  · simp only [h, if_false]
    unfold lookupA
    induction l with
    | nil => simp [List.find?]
    | cons hd tl ih =>
      simp only [List.any_cons, Bool.or_eq_true, decide_eq_true_eq] at h
      push_neg at h
      have h1 : ¬ hd.1 = k := h.1
      have h2 : ¬ tl.any (fun p => p.1 = k) = true := h.2
      simpa [List.find?, h1] using ih h2

theorem insertA_length_le {α : Type} (k : Nat) (v : α) (l : List (Nat × α)) :
    (insertA k v l).length ≤ l.length + 1 := by
  unfold insertA
  by_cases h : l.any (fun p => p.1 = k) <;> simp [h]

theorem removeA_length_le {α : Type} (k : Nat) (l : List (Nat × α)) :
    (removeA k l).length ≤ l.length := by
  unfold removeA
  exact List.length_filter_le _ l

theorem removeA_of_lookupA_none {α : Type} (k : Nat) (l : List (Nat × α))
    (h : lookupA k l = none) : removeA k l = l := by
  rw [lookupA_eq_none_iff] at h
  unfold removeA
  exact List.filter_eq_self.mpr (fun p hp => by simpa using h p hp)

theorem lookupA_isSome_of_mem {α : Type} {k : Nat} {l : List (Nat × α)}
    (h : ∃ p ∈ l, p.1 = k) : lookupA k l ≠ none := by
  rw [Ne, lookupA_eq_none_iff]
  push_neg
  obtain ⟨p, hp, hk⟩ := h
  exact ⟨p, hp, hk⟩

/-! ### Claim theorems -/

/-- C10: `completion_percentage` returns `none` exactly when `total_bytes`
is `none`; a zero total short-circuits to 100 without dividing; a non-zero
total takes the division branch.  (The `f64` arithmetic of the source is
modelled exactly over `ℚ`; the verified structure is value-independent.) -/
theorem completion_percentage_spec (p : DownloadProgress) :
    (p.completion_percentage = none ↔ p.total_bytes = none) ∧
    (p.total_bytes = some 0 → p.completion_percentage = some 100) ∧
    (∀ t, p.total_bytes = some t → t ≠ 0 →
      p.completion_percentage = some (((p.downloaded_bytes : ℚ) / (t : ℚ)) * 100)) := by
  unfold DownloadProgress.completion_percentage
  refine ⟨?_, ?_, ?_⟩
  · cases h : p.total_bytes <;> simp [h]
  · intro h
    simp [h]
  · intro t h ht
    simp [h, ht]

/-- Witness for C10 at a concrete progress value with a zero total. -/
theorem completion_percentage_spec_witness :
    (DownloadProgress.completion_percentage
      { downloaded_bytes := 5, total_bytes := some 0, speed_bps := 1, eta_seconds := none })
      = some 100 :=
  (completion_percentage_spec _).2.1 rfl

/-- C9: `get_progress` fails with `TaskNotFound` exactly when the id is
absent from the all-tasks map; for a registered task without a stored
progress record it returns the default progress value. -/
theorem get_progress_spec (m : TaskQueueManager) (id : Nat) :
    (m.get_progress id = .error (.TaskNotFound id) ↔ lookupA id m.all_tasks = none) ∧
    ((lookupA id m.all_tasks).isSome = true → lookupA id m.progress = none →
      m.get_progress id = .ok DownloadProgress.mkNew) ∧
    DownloadProgress.mkNew =
      { downloaded_bytes := 0, total_bytes := none, speed_bps := 0, eta_seconds := none } := by
  unfold TaskQueueManager.get_progress
  refine ⟨?_, ?_, rfl⟩
  · cases h : lookupA id m.all_tasks <;> simp [h]
  · intro hs hp
    cases h : lookupA id m.all_tasks with
    | none => rw [h] at hs; simp at hs
    | some v => simp [h, hp]

/-- Witness for C9: a freshly added task with no progress record. -/
theorem get_progress_spec_witness :
    (TaskQueueManager.mkNew.add_task "https://example.com/file.zip" "/d/f").2.get_progress 0
      = .ok DownloadProgress.mkNew :=
  (get_progress_spec _ 0).2.1 (by decide) (by decide)

/-- C4: `add_task` returns the fresh task's id and registers it;
with fewer than `MAX_CONCURRENT_DOWNLOADS` active tasks the task goes
directly into the active set with status `Downloading`, otherwise it is
appended to the tail of the waiting queue with status `Waiting`. -/
theorem add_task_spec (m : TaskQueueManager) (url path : String) :
    (m.add_task url path).1 = m.next_id ∧
    (m.active_tasks.length < MAX_CONCURRENT_DOWNLOADS →
      lookupA m.next_id (m.add_task url path).2.active_tasks =
        some { DownloadTask.mkNew m.next_id url path with status := .Downloading } ∧
      lookupA m.next_id (m.add_task url path).2.all_tasks =
        some { DownloadTask.mkNew m.next_id url path with status := .Downloading } ∧
      (m.add_task url path).2.queued_tasks = m.queued_tasks) ∧
    (MAX_CONCURRENT_DOWNLOADS ≤ m.active_tasks.length →
      (m.add_task url path).2.queued_tasks =
        m.queued_tasks ++ [DownloadTask.mkNew m.next_id url path] ∧
      lookupA m.next_id (m.add_task url path).2.all_tasks =
        some (DownloadTask.mkNew m.next_id url path) ∧
      (DownloadTask.mkNew m.next_id url path).status = .Waiting ∧
      (m.add_task url path).2.active_tasks = m.active_tasks) := by
  refine ⟨?_, ?_, ?_⟩
  · by_cases h : m.active_tasks.length < MAX_CONCURRENT_DOWNLOADS <;>
      simp [TaskQueueManager.add_task, DownloadTask.mkNew, h]
  · intro h
    simp [TaskQueueManager.add_task, DownloadTask.mkNew, h, lookupA_insertA_self]
  · intro h
    have h2 : ¬ m.active_tasks.length < MAX_CONCURRENT_DOWNLOADS := by omega
    simp [TaskQueueManager.add_task, DownloadTask.mkNew, h2, lookupA_insertA_self]

/-- Witness for C4 on an empty manager (immediate-start branch). -/
theorem add_task_spec_witness :
    lookupA 0 (TaskQueueManager.mkNew.add_task "u" "/p").2.active_tasks =
      some { DownloadTask.mkNew 0 "u" "/p" with status := .Downloading } :=
  ((add_task_spec TaskQueueManager.mkNew "u" "/p").2.1 (by decide)).1

/-- The all-tasks map of the queue manager binds every key to a task whose
`id` field is that key (holds in every reachable state; the lookup in
`add_download_with_policy` relies on it). -/
def WellKeyed (m : TaskQueueManager) : Prop :=
  ∀ p ∈ m.all_tasks, p.2.id = p.1

instance (m : TaskQueueManager) : Decidable (WellKeyed m) := by
  unfold WellKeyed
  infer_instance

theorem find_duplicate_task_mem (m : TaskQueueManager) (url path : String) (tid : Nat)
    (hw : WellKeyed m) (h : m.find_duplicate_task url path = some tid) :
    lookupA tid m.all_tasks ≠ none := by
  unfold TaskQueueManager.find_duplicate_task at h
  cases hf : m.all_tasks.find? (fun p => p.2.url = url ∧ p.2.target_path = path) with
  | none => rw [hf] at h; simp at h
  | some entry =>
    rw [hf] at h
    simp only [Option.map] at h
    injection h with h
    have hmem := List.mem_of_find?_eq_some hf
    exact lookupA_isSome_of_mem ⟨entry, hmem, by rw [← h]; exact (hw entry hmem).symm⟩

/-- C7: `FailIfDuplicate` allows reuse for no status whatsoever; when a
duplicate (raw URL + path match) exists, submission fails with
`PolicyViolation` carrying the existing task's id; when none exists the
submission creates and returns a fresh task. -/
theorem fail_if_duplicate_spec (m : TaskQueueManager) (url path : String)
    (hw : WellKeyed m) :
    (∀ st, DuplicatePolicy.FailIfDuplicate.allows_reuse st = false) ∧
    (∀ tid, m.find_duplicate_task url path = some tid →
      m.add_download_with_policy url path .FailIfDuplicate =
        .error (.PolicyViolation tid "Duplicate found but policy forbids reuse")) ∧
    (m.find_duplicate_task url path = none →
      m.add_download_with_policy url path .FailIfDuplicate =
        .ok (.NewTask (m.add_task url path).1, (m.add_task url path).2)) := by
  refine ⟨?_, ?_, ?_⟩
  · intro st
    cases st <;> rfl
  · intro tid h
    have hl := find_duplicate_task_mem m url path tid hw h
    unfold TaskQueueManager.add_download_with_policy
    rw [h]
    cases hlk : lookupA tid m.all_tasks with
    | none => exact absurd hlk hl
    | some task =>
      have h1 : DuplicatePolicy.FailIfDuplicate.allows_reuse
          (TaskStatus.from_download_status task.status) = false := by
        cases task.status <;> rfl
      simp [hlk, h1, DuplicatePolicy.should_fail_on_duplicate]
  · intro h
    unfold TaskQueueManager.add_download_with_policy
    rw [h]

/-- States of a `TaskQueueManager` reachable from `TaskQueueManager::new`
by any sequence of public operations. -/
inductive Reachable : TaskQueueManager → Prop where
  | new : Reachable TaskQueueManager.mkNew
  | add (m : TaskQueueManager) (url path : String) :
      Reachable m → Reachable (m.add_task url path).2
  | addPolicy (m : TaskQueueManager) (url path : String) (policy : DuplicatePolicy)
      (r : DuplicateResult) (m2 : TaskQueueManager) :
      Reachable m → m.add_download_with_policy url path policy = .ok (r, m2) → Reachable m2
  | pause (m : TaskQueueManager) (id : Nat) (m2 : TaskQueueManager) :
      Reachable m → m.pause_task id = .ok m2 → Reachable m2
  | resume (m : TaskQueueManager) (id : Nat) (m2 : TaskQueueManager) :
      Reachable m → m.resume_task id = .ok m2 → Reachable m2
  | cancel (m : TaskQueueManager) (id : Nat) :
      Reachable m → Reachable (m.cancel_state id)
  | complete (m : TaskQueueManager) (id : Nat) :
      Reachable m → Reachable (m.complete_task id)
  | fail (m : TaskQueueManager) (id : Nat) (err : String) :
      Reachable m → Reachable (m.fail_task id err)
  | progressUpd (m : TaskQueueManager) (id : Nat) (p : DownloadProgress)
      (m2 : TaskQueueManager) :
      Reachable m → m.update_progress id p = .ok m2 → Reachable m2

theorem try_start_next_active_le (m : TaskQueueManager)
    (h : m.active_tasks.length ≤ MAX_CONCURRENT_DOWNLOADS) :
    m.try_start_next_queued_task.active_tasks.length ≤ MAX_CONCURRENT_DOWNLOADS := by
  unfold TaskQueueManager.try_start_next_queued_task
  by_cases hge : m.active_tasks.length ≥ MAX_CONCURRENT_DOWNLOADS
  · simp only [hge, if_true]
    exact h
  · cases hq : m.queued_tasks with
    | nil =>
      simp [hge, hq]
      exact h
    | cons t rest =>
      simp [hge, hq]
      exact le_trans (insertA_length_le _ _ _) (by omega)

theorem add_task_active_le (m : TaskQueueManager) (url path : String)
    (h : m.active_tasks.length ≤ MAX_CONCURRENT_DOWNLOADS) :
    (m.add_task url path).2.active_tasks.length ≤ MAX_CONCURRENT_DOWNLOADS := by
  by_cases hlt : m.active_tasks.length < MAX_CONCURRENT_DOWNLOADS
  · simp [TaskQueueManager.add_task, hlt]
    exact le_trans (insertA_length_le _ _ _) (by omega)
  · simp [TaskQueueManager.add_task, hlt]
    exact h

theorem pause_active_le (m m2 : TaskQueueManager) (id : Nat)
    (hp : m.pause_task id = .ok m2)
    (h : m.active_tasks.length ≤ MAX_CONCURRENT_DOWNLOADS) :
    m2.active_tasks.length ≤ MAX_CONCURRENT_DOWNLOADS := by
  unfold TaskQueueManager.pause_task at hp
  split at hp
  · exact absurd hp (by simp)
  · split at hp
    · exact absurd hp (by simp)
    · injection hp with hp
      subst hp
      exact try_start_next_active_le _
        (le_trans (removeA_length_le id m.active_tasks) h)

theorem resume_active_le (m m2 : TaskQueueManager) (id : Nat)
    (hp : m.resume_task id = .ok m2)
    (h : m.active_tasks.length ≤ MAX_CONCURRENT_DOWNLOADS) :
    m2.active_tasks.length ≤ MAX_CONCURRENT_DOWNLOADS := by
  unfold TaskQueueManager.resume_task at hp
  split at hp
  · exact absurd hp (by simp)
  · split at hp
    · exact absurd hp (by simp)
    · split at hp
      · injection hp with hp
        subst hp
        exact le_trans (insertA_length_le _ _ _) (by omega)
      · injection hp with hp
        subst hp
        exact h

theorem cancel_active_le (m : TaskQueueManager) (id : Nat)
    (h : m.active_tasks.length ≤ MAX_CONCURRENT_DOWNLOADS) :
    (m.cancel_state id).active_tasks.length ≤ MAX_CONCURRENT_DOWNLOADS := by
  unfold TaskQueueManager.cancel_state
  exact try_start_next_active_le _ (le_trans (removeA_length_le id m.active_tasks) h)

theorem complete_active_le (m : TaskQueueManager) (id : Nat)
    (h : m.active_tasks.length ≤ MAX_CONCURRENT_DOWNLOADS) :
    (m.complete_task id).active_tasks.length ≤ MAX_CONCURRENT_DOWNLOADS := by
  unfold TaskQueueManager.complete_task
  cases hl : lookupA id m.all_tasks <;>
    · simp only [hl]
      exact try_start_next_active_le _ (le_trans (removeA_length_le id m.active_tasks) h)

theorem fail_active_le (m : TaskQueueManager) (id : Nat) (err : String)
    (h : m.active_tasks.length ≤ MAX_CONCURRENT_DOWNLOADS) :
    (m.fail_task id err).active_tasks.length ≤ MAX_CONCURRENT_DOWNLOADS := by
  unfold TaskQueueManager.fail_task
  cases hl : lookupA id m.all_tasks <;>
    · simp only [hl]
      exact try_start_next_active_le _ (le_trans (removeA_length_le id m.active_tasks) h)

theorem add_policy_state (m m2 : TaskQueueManager) (url path : String)
    (policy : DuplicatePolicy) (r : DuplicateResult)
    (hp : m.add_download_with_policy url path policy = .ok (r, m2)) :
    m2 = m ∨ m2 = (m.add_task url path).2 := by
  unfold TaskQueueManager.add_download_with_policy at hp
  split at hp
  · split at hp
    · exact absurd hp (by simp)
    · split at hp
      · injection hp with hp
        injection hp with _ hp
        exact Or.inl hp.symm
      · split at hp
        · exact absurd hp (by simp)
        · injection hp with hp
          injection hp with _ hp
          exact Or.inr hp.symm
  · injection hp with hp
    injection hp with _ hp
    exact Or.inr hp.symm

/-- C2: every public operation of the queue manager preserves the bound
`|active_tasks| ≤ MAX_CONCURRENT_DOWNLOADS`; hence every reachable state
satisfies it (and the bound is 3). -/
theorem reachable_active_le_max (m : TaskQueueManager) (h : Reachable m) :
    m.active_tasks.length ≤ MAX_CONCURRENT_DOWNLOADS ∧ MAX_CONCURRENT_DOWNLOADS = 3 := by
  refine ⟨?_, rfl⟩
  induction h with
  | new => simp [TaskQueueManager.mkNew]
  | add m url path _ ih => exact add_task_active_le m url path ih
  | addPolicy m url path policy r m2 _ hp ih =>
    rcases add_policy_state m m2 url path policy r hp with he | he
    · rw [he]; exact ih
    · rw [he]; exact add_task_active_le m url path ih
  | pause m id m2 _ hp ih => exact pause_active_le m m2 id hp ih
  | resume m id m2 _ hp ih => exact resume_active_le m m2 id hp ih
  | cancel m id _ ih => exact cancel_active_le m id ih
  | complete m id _ ih => exact complete_active_le m id ih
  | fail m id err _ ih => exact fail_active_le m id err ih
  | progressUpd m id p m2 _ hp ih =>
    unfold TaskQueueManager.update_progress at hp
    split at hp
    · exact absurd hp (by simp)
    · injection hp with hp
      subst hp
      exact ih

/-- Witness for C2: the bound holds at the freshly created manager. -/
theorem reachable_active_le_max_witness :
    TaskQueueManager.mkNew.active_tasks.length ≤ MAX_CONCURRENT_DOWNLOADS ∧
      MAX_CONCURRENT_DOWNLOADS = 3 :=
  reachable_active_le_max TaskQueueManager.mkNew Reachable.new

theorem try_start_head (m : TaskQueueManager) (t : DownloadTask) (ts : List DownloadTask)
    (hq : m.queued_tasks = t :: ts)
    (hc : m.active_tasks.length < MAX_CONCURRENT_DOWNLOADS) :
    m.try_start_next_queued_task =
      { m with
        queued_tasks := ts
        all_tasks := insertA t.id { t with status := .Downloading } m.all_tasks
        active_tasks := insertA t.id { t with status := .Downloading } m.active_tasks } := by
  unfold TaskQueueManager.try_start_next_queued_task
  have hge : ¬ m.active_tasks.length ≥ MAX_CONCURRENT_DOWNLOADS := by omega
  simp [hge, hq]

/-- C5: whenever an operation that can free an active slot (complete, fail,
pause, cancel) leaves `|active_tasks|` below the capacity while the waiting
queue is non-empty, exactly the head of the queue is popped, switched to
`Downloading`, and inserted into the active set and the registry before the
operation returns.  Promotion always takes the queue head, so waiting tasks
start in FIFO insertion order. -/
theorem slot_release_promotes_fifo_head :
    (∀ (m : TaskQueueManager) t ts, m.queued_tasks = t :: ts →
      m.active_tasks.length < MAX_CONCURRENT_DOWNLOADS →
      m.try_start_next_queued_task.queued_tasks = ts ∧
      lookupA t.id m.try_start_next_queued_task.active_tasks =
        some { t with status := .Downloading } ∧
      lookupA t.id m.try_start_next_queued_task.all_tasks =
        some { t with status := .Downloading }) ∧
    (∀ (m : TaskQueueManager) id t ts, m.queued_tasks = t :: ts →
      (removeA id m.active_tasks).length < MAX_CONCURRENT_DOWNLOADS →
      (m.complete_task id).queued_tasks = ts ∧
      lookupA t.id (m.complete_task id).active_tasks =
        some { t with status := .Downloading }) ∧
    (∀ (m : TaskQueueManager) id err t ts, m.queued_tasks = t :: ts →
      (removeA id m.active_tasks).length < MAX_CONCURRENT_DOWNLOADS →
      (m.fail_task id err).queued_tasks = ts ∧
      lookupA t.id (m.fail_task id err).active_tasks =
        some { t with status := .Downloading }) ∧
    (∀ (m : TaskQueueManager) id m2 t ts, m.pause_task id = .ok m2 →
      m.queued_tasks = t :: ts →
      (removeA id m.active_tasks).length < MAX_CONCURRENT_DOWNLOADS →
      m2.queued_tasks = ts ∧
      lookupA t.id m2.active_tasks = some { t with status := .Downloading }) ∧
    (∀ (m : TaskQueueManager) id t ts,
      m.queued_tasks.filter (fun x => x.id ≠ id) = t :: ts →
      (removeA id m.active_tasks).length < MAX_CONCURRENT_DOWNLOADS →
      (m.cancel_state id).queued_tasks = ts ∧
      lookupA t.id (m.cancel_state id).active_tasks =
        some { t with status := .Downloading }) := by
  refine ⟨?_, ?_, ?_, ?_, ?_⟩
  · intro m t ts hq hc
    rw [try_start_head m t ts hq hc]
    exact ⟨rfl, lookupA_insertA_self _ _ _, lookupA_insertA_self _ _ _⟩
  · intro m id t ts hq hc
    unfold TaskQueueManager.complete_task
    cases hl : lookupA id m.all_tasks with
    | none =>
      simp only [hl]
      rw [try_start_head _ t ts (by simpa using hq) (by simpa using hc)]
      exact ⟨rfl, lookupA_insertA_self _ _ _⟩
    | some task =>
      simp only [hl]
      rw [try_start_head _ t ts (by simpa using hq) (by simpa using hc)]
      exact ⟨rfl, lookupA_insertA_self _ _ _⟩
  · intro m id err t ts hq hc
    unfold TaskQueueManager.fail_task
    cases hl : lookupA id m.all_tasks with
    | none =>
      simp only [hl]
      rw [try_start_head _ t ts (by simpa using hq) (by simpa using hc)]
      exact ⟨rfl, lookupA_insertA_self _ _ _⟩
    | some task =>
      simp only [hl]
      rw [try_start_head _ t ts (by simpa using hq) (by simpa using hc)]
      exact ⟨rfl, lookupA_insertA_self _ _ _⟩
  · intro m id m2 t ts hp hq hc
    unfold TaskQueueManager.pause_task at hp
    split at hp
    · exact absurd hp (by simp)
    · split at hp
      · exact absurd hp (by simp)
      · injection hp with hp
        subst hp
        rw [try_start_head _ t ts (by simpa using hq) (by simpa using hc)]
        exact ⟨rfl, lookupA_insertA_self _ _ _⟩
  · intro m id t ts hq hc
    unfold TaskQueueManager.cancel_state
    rw [try_start_head _ t ts (by simpa using hq) (by simpa using hc)]
    exact ⟨rfl, lookupA_insertA_self _ _ _⟩

theorem lookupA_removeA_self {α : Type} (k : Nat) (l : List (Nat × α)) :
    lookupA k (removeA k l) = none := by
  rw [lookupA_eq_none_iff]
  intro p hp
  unfold removeA at hp
  simpa using (List.mem_filter.mp hp).2

theorem removeA_removeA {α : Type} (k : Nat) (l : List (Nat × α)) :
    removeA k (removeA k l) = removeA k l :=
  removeA_of_lookupA_none k _ (lookupA_removeA_self k l)

theorem mem_insertA {α : Type} {k : Nat} {v : α} {l : List (Nat × α)} {q : Nat × α}
    (h : q ∈ insertA k v l) : q = (k, v) ∨ q ∈ l := by
  unfold insertA at h
  by_cases ha : l.any (fun p => p.1 = k) = true
  · rw [if_pos ha] at h
    obtain ⟨p, hp, hq⟩ := List.mem_map.mp h
    by_cases hk : p.1 = k
    · rw [if_pos hk] at hq
      exact Or.inl hq.symm
    · rw [if_neg hk] at hq
      exact Or.inr (hq ▸ hp)
  · rw [if_neg ha] at h
    rcases List.mem_append.mp h with h | h
    · exact Or.inr h
    · exact Or.inl (List.mem_singleton.mp h)

theorem lookupA_insertA_none {α : Type} {j k : Nat} {v : α} {l : List (Nat × α)}
    (hjk : j ≠ k) (hl : lookupA j l = none) :
    lookupA j (insertA k v l) = none := by
  rw [lookupA_eq_none_iff]
  intro q hq
  rcases mem_insertA hq with h | h
  · rw [h]
    exact fun hc => hjk hc.symm
  · exact (lookupA_eq_none_iff j l).mp hl q h

theorem removeA_insertA_none {α : Type} {j k : Nat} {v : α} {l : List (Nat × α)}
    (hjk : j ≠ k) (hl : lookupA j l = none) :
    removeA j (insertA k v l) = insertA k v l :=
  removeA_of_lookupA_none j _ (lookupA_insertA_none hjk hl)

theorem lookupA_removeA_none {α : Type} {j k : Nat} {l : List (Nat × α)}
    (hl : lookupA j l = none) : lookupA j (removeA k l) = none := by
  rw [lookupA_eq_none_iff]
  intro q hq
  exact (lookupA_eq_none_iff j l).mp hl q (List.mem_of_mem_filter hq)

theorem insertA_length_of_none {α : Type} {k : Nat} (v : α) {l : List (Nat × α)}
    (hl : lookupA k l = none) : (insertA k v l).length = l.length + 1 := by
  have ha : ¬ l.any (fun p => p.1 = k) = true := by
    simp only [List.any_eq_true, decide_eq_true_eq]
    rintro ⟨p, hp, hk⟩
    exact (lookupA_eq_none_iff k l).mp hl p hp hk
  unfold insertA
  rw [if_neg ha]
  simp

theorem filter_idem {α : Type} (p : α → Bool) (l : List α) :
    (l.filter p).filter p = l.filter p :=
  List.filter_eq_self.mpr (fun x hx => (List.mem_filter.mp hx).2)

theorem removeA_length_ge_of_nodup {α : Type} (k : Nat) (l : List (Nat × α))
    (hn : (l.map Prod.fst).Nodup) : l.length ≤ (removeA k l).length + 1 := by
  induction l with
  | nil => simp [removeA]
  | cons p rest ih =>
    simp only [List.map_cons, List.nodup_cons] at hn
    by_cases hk : p.1 = k
    · have hnone : lookupA k rest = none := by
        rw [lookupA_eq_none_iff]
        intro q hq hqk
        exact hn.1 (by rw [hk, ← hqk]; exact List.mem_map_of_mem Prod.fst hq)
      have h1 : removeA k (p :: rest) = removeA k rest := by
        unfold removeA
        rw [List.filter_cons]
        simp [hk]
      rw [h1, removeA_of_lookupA_none k rest hnone]
      simp
    · have h1 : removeA k (p :: rest) = p :: removeA k rest := by
        unfold removeA
        rw [List.filter_cons]
        simp [hk]
      rw [h1]
      have := ih hn.2
      simp only [List.length_cons]
      omega

theorem try_start_of_ge (m : TaskQueueManager)
    (h : m.active_tasks.length ≥ MAX_CONCURRENT_DOWNLOADS) :
    m.try_start_next_queued_task = m := by
  unfold TaskQueueManager.try_start_next_queued_task
  rw [if_pos h]

theorem try_start_of_nil (m : TaskQueueManager) (h : m.queued_tasks = []) :
    m.try_start_next_queued_task = m := by
  unfold TaskQueueManager.try_start_next_queued_task
  by_cases hge : m.active_tasks.length ≥ MAX_CONCURRENT_DOWNLOADS
  · rw [if_pos hge]
  · rw [if_neg hge, h]

theorem cancel_state_eq (m : TaskQueueManager) (id : Nat) :
    m.cancel_state id =
      TaskQueueManager.try_start_next_queued_task
        ⟨removeA id m.active_tasks, m.queued_tasks.filter (fun t => t.id ≠ id),
         removeA id m.all_tasks, m.progress, m.next_id⟩ := rfl

/-- Consistency of the scheduler state: the waiting queue is non-empty only
when the active set is full, ids do not repeat within the active set or the
queue, and no id is simultaneously active and queued.  Preserved by normal
operation; violated in reachable corner states created by pausing/resuming
queued tasks (see the counterexample). -/
def SchedInv (m : TaskQueueManager) : Prop :=
  (m.queued_tasks = [] ∨ m.active_tasks.length = MAX_CONCURRENT_DOWNLOADS) ∧
  (m.active_tasks.map Prod.fst).Nodup ∧
  (m.queued_tasks.map DownloadTask.id).Nodup ∧
  ∀ p ∈ m.active_tasks, ∀ t ∈ m.queued_tasks, p.1 ≠ t.id

instance (m : TaskQueueManager) : Decidable (SchedInv m) := by
  unfold SchedInv
  infer_instance

theorem cancel_state_square (m : TaskQueueManager) (id : Nat) (hinv : SchedInv m) :
    (m.cancel_state id).cancel_state id = m.cancel_state id := by
  obtain ⟨hq3, hnodA, _, hdisj⟩ := hinv
  rw [cancel_state_eq m id]
  by_cases hge : (removeA id m.active_tasks).length ≥ MAX_CONCURRENT_DOWNLOADS
  · rw [try_start_of_ge _ (by simpa using hge)]
    rw [cancel_state_eq]
    simp only [removeA_removeA, filter_idem]
    rw [try_start_of_ge _ (by simpa using hge)]
  · cases hq1 : m.queued_tasks.filter (fun t => t.id ≠ id) with
    | nil =>
      rw [try_start_of_nil _ (by simpa using hq1)]
      rw [cancel_state_eq]
      simp only [removeA_removeA, filter_idem]
      rw [try_start_of_nil _ (by simpa using hq1)]
      simp
    | cons h t =>
      -- the promoted head comes from the filtered queue
      have hhq1 : h ∈ m.queued_tasks.filter (fun x => x.id ≠ id) := by
        rw [hq1]; exact List.mem_cons_self _ _
      have hhmem : h ∈ m.queued_tasks := List.mem_of_mem_filter hhq1
      have hhid : h.id ≠ id := by simpa using (List.mem_filter.mp hhq1).2
      have hqne : m.queued_tasks ≠ [] := by
        intro hc
        rw [hc] at hq1
        simp at hq1
      have hact3 : m.active_tasks.length = MAX_CONCURRENT_DOWNLOADS := by
        rcases hq3 with hc | hc
        · exact absurd hc hqne
        · exact hc
      have ha2 : (removeA id m.active_tasks).length + 1 = MAX_CONCURRENT_DOWNLOADS := by
        have hle := removeA_length_ge_of_nodup id m.active_tasks hnodA
        have hlt : (removeA id m.active_tasks).length < MAX_CONCURRENT_DOWNLOADS := by
          omega
        omega
      have hhact : lookupA h.id m.active_tasks = none := by
        rw [lookupA_eq_none_iff]
        intro p hp
        exact hdisj p hp h hhmem
      have hha1 : lookupA h.id (removeA id m.active_tasks) = none :=
        lookupA_removeA_none hhact
      rw [try_start_head _ h t (by simpa using hq1)
        (by simp only []; omega)]
      rw [cancel_state_eq]
      have hactlen : (insertA h.id { h with status := DownloadStatus.Downloading }
          (removeA id m.active_tasks)).length = MAX_CONCURRENT_DOWNLOADS := by
        rw [insertA_length_of_none _ hha1]
        omega
      have hremact : removeA id (insertA h.id
          { h with status := DownloadStatus.Downloading } (removeA id m.active_tasks)) =
          insertA h.id { h with status := DownloadStatus.Downloading }
            (removeA id m.active_tasks) :=
        removeA_insertA_none (fun hc => hhid hc.symm) (lookupA_removeA_self id m.active_tasks)
      have hremall : removeA id (insertA h.id
          { h with status := DownloadStatus.Downloading } (removeA id m.all_tasks)) =
          insertA h.id { h with status := DownloadStatus.Downloading }
            (removeA id m.all_tasks) :=
        removeA_insertA_none (fun hc => hhid hc.symm) (lookupA_removeA_self id m.all_tasks)
      have htfilter : t.filter (fun x => x.id ≠ id) = t := by
        apply List.filter_eq_self.mpr
        intro x hx
        have : x ∈ m.queued_tasks.filter (fun x => x.id ≠ id) := by
          rw [hq1]; exact List.mem_cons_of_mem _ hx
        exact (List.mem_filter.mp this).2
      simp only [hremact, hremall, htfilter]
      rw [try_start_of_ge]
      simp only []
      omega

/-- C8 (amended): `cancel_task` never returns an error, and on any state
satisfying the scheduler-consistency invariant `SchedInv` (queue non-empty
only when the active set is full, no duplicated ids), cancelling any id —
registered or not — N+1 times leaves the registry in exactly the state of
cancelling it once.  (On reachable states violating `SchedInv`, repeated
cancels can promote several queued tasks; see the counterexample.) -/
theorem cancel_idempotent_spec (m : TaskQueueManager) (hinv : SchedInv m) (id : Nat) :
    (∀ n : Nat, (fun s : TaskQueueManager => s.cancel_state id)^[n + 1] m =
      m.cancel_state id) ∧
    m.cancel_task id = .ok (m.cancel_state id) := by
  constructor
  · have hstep : ∀ n : Nat, (fun s : TaskQueueManager => s.cancel_state id)^[n]
        (m.cancel_state id) = m.cancel_state id := by
      intro n
      induction n with
      | zero => rfl
      | succ k ih =>
        rw [Function.iterate_succ_apply]
        simpa [cancel_state_square m id hinv] using ih
    intro n
    rw [Function.iterate_succ_apply]
    exact hstep n
  · rfl

/-- Witness for C8 on the empty manager (which satisfies `SchedInv`). -/
theorem cancel_idempotent_spec_witness :
    (fun s : TaskQueueManager => s.cancel_state 5)^[4] TaskQueueManager.mkNew =
      TaskQueueManager.mkNew.cancel_state 5 :=
  (cancel_idempotent_spec TaskQueueManager.mkNew (by decide) 5).1 3

/-- Extract the state of a successful manager operation (the operations in
the counterexample trace all succeed, as proved there). -/
def okState (r : Except DownloadError TaskQueueManager) : TaskQueueManager :=
  match r with
  | .ok m => m
  | .error _ => TaskQueueManager.mkNew

/-- Trace to the queue anomaly, step 1: three tasks start, a fourth queues. -/
def anomalyStep4 : TaskQueueManager :=
  ((((TaskQueueManager.mkNew.add_task "u0" "/p0").2.add_task "u1" "/p1").2.add_task
    "u2" "/p2").2.add_task "t" "/pt").2

/-- Pausing the queued task leaves its stale queue entry in place. -/
def anomalyStep5 : TaskQueueManager := okState (anomalyStep4.pause_task 3)

/-- Resuming it while the active set is full appends a second queue entry. -/
def anomalyStep6 : TaskQueueManager := okState (anomalyStep5.resume_task 3)

/-- A second pause of the same queued task. -/
def anomalyStep7 : TaskQueueManager := okState (anomalyStep6.pause_task 3)

/-- A second full-capacity resume: the queue now holds the id three times. -/
def anomalyStep8 : TaskQueueManager := okState (anomalyStep7.resume_task 3)

/-- A fifth task queues behind the duplicates. -/
def anomalyStep9 : TaskQueueManager := (anomalyStep8.add_task "w" "/pw").2

/-- A reachable manager state exhibiting the queue anomaly: after two
completions drain the duplicated queue entries, the active set holds 2
tasks while the queue is still non-empty. -/
def queueAnomalyState : TaskQueueManager :=
  (anomalyStep9.complete_task 0).complete_task 1

/-- C8 counterexample: `queueAnomalyState` is reachable by public operations
from a fresh manager, yet cancelling the unregistered id 99 twice promotes
two queued tasks while cancelling it once promotes only one — the registry
states differ, refuting idempotence of `cancel` as stated. -/
theorem cancel_not_idempotent_counterexample :
    Reachable queueAnomalyState ∧
    (queueAnomalyState.cancel_state 99).cancel_state 99 ≠ queueAnomalyState.cancel_state 99 := by
  constructor
  · have h0 : Reachable TaskQueueManager.mkNew := Reachable.new
    have h1 := Reachable.add _ "u0" "/p0" h0
    have h2 := Reachable.add _ "u1" "/p1" h1
    have h3 := Reachable.add _ "u2" "/p2" h2
    have h4 := Reachable.add _ "t" "/pt" h3
    have h5 := Reachable.pause anomalyStep4 3 anomalyStep5 h4 (by rfl)
    have h6 := Reachable.resume anomalyStep5 3 anomalyStep6 h5 (by rfl)
    have h7 := Reachable.pause anomalyStep6 3 anomalyStep7 h6 (by rfl)
    have h8 := Reachable.resume anomalyStep7 3 anomalyStep8 h7 (by rfl)
    have h9 := Reachable.add anomalyStep8 "w" "/pw" h8
    have h10 := Reachable.complete anomalyStep9 0 h9
    exact Reachable.complete _ 1 h10
  · decide

/-! ### Order theory for the query-pair sort -/

theorem char_eq_of_toNat_eq {a b : Char} (h : a.toNat = b.toNat) : a = b :=
  Char.eq_of_val_eq (UInt32.toNat.inj h)

theorem lexLe_total : ∀ a b : List Char, lexLe a b = true ∨ lexLe b a = true := by
  intro a
  induction a with
  | nil => intro b; exact Or.inl rfl
  | cons x xs ih =>
    intro b
    cases b with
    | nil => exact Or.inr rfl
    | cons y ys =>
      unfold lexLe
      rcases Nat.lt_trichotomy x.toNat y.toNat with h | h | h
      · left
        rw [if_pos h]
      · rcases ih ys with h2 | h2
        · left
          rw [if_neg (by omega), if_pos h]
          exact h2
        · right
          rw [if_neg (by omega), if_pos h.symm]
          exact h2
      · right
        rw [if_pos h]

theorem lexLe_antisymm : ∀ a b : List Char,
    lexLe a b = true → lexLe b a = true → a = b := by
  intro a
  induction a with
  | nil =>
    intro b _ hba
    cases b with
    | nil => rfl
    | cons y ys => exact absurd hba (by simp [lexLe])
  | cons x xs ih =>
    intro b hab hba
    cases b with
    | nil => exact absurd hab (by simp [lexLe])
    | cons y ys =>
      unfold lexLe at hab hba
      rcases Nat.lt_trichotomy x.toNat y.toNat with h | h | h
      · rw [if_neg (by omega)] at hba
        rw [if_neg (by omega)] at hba
        exact absurd hba (by simp)
      · rw [if_neg (by omega), if_pos h] at hab
        rw [if_neg (by omega), if_pos h.symm] at hba
        rw [char_eq_of_toNat_eq h, ih ys hab hba]
      · rw [if_neg (by omega)] at hab
        rw [if_neg (by omega)] at hab
        exact absurd hab (by simp)

theorem lexLe_trans : ∀ a b c : List Char,
    lexLe a b = true → lexLe b c = true → lexLe a c = true := by
  intro a
  induction a with
  | nil => intro b c _ _; rfl
  | cons x xs ih =>
    intro b c hab hbc
    cases b with
    | nil => exact absurd hab (by simp [lexLe])
    | cons y ys =>
      cases c with
      | nil => exact absurd hbc (by simp [lexLe])
      | cons z zs =>
        unfold lexLe at hab hbc ⊢
        rcases Nat.lt_trichotomy x.toNat y.toNat with h1 | h1 | h1
        · rcases Nat.lt_trichotomy y.toNat z.toNat with h2 | h2 | h2
          · rw [if_pos (by omega)]
          · rw [if_pos (by omega)]
          · rw [if_neg (by omega), if_neg (by omega)] at hbc
            exact absurd hbc (by simp)
        · rcases Nat.lt_trichotomy y.toNat z.toNat with h2 | h2 | h2
          · rw [if_pos (by omega)]
          · rw [if_neg (by omega), if_pos (by omega)]
            rw [if_neg (by omega), if_pos h1] at hab
            rw [if_neg (by omega), if_pos h2] at hbc
            exact ih ys zs hab hbc
          · rw [if_neg (by omega), if_neg (by omega)] at hbc
            exact absurd hbc (by simp)
        · rw [if_neg (by omega)] at hab
          rw [if_neg (by omega)] at hab
          exact absurd hab (by simp)

theorem pairLe_total : ∀ x y : List Char × List Char,
    pairLe x y = true ∨ pairLe y x = true := by
  intro x y
  unfold pairLe
  by_cases h : x.1 = y.1
  · rw [if_pos h, if_pos h.symm]
    exact lexLe_total x.2 y.2
  · rw [if_neg h, if_neg (fun hc => h hc.symm)]
    exact lexLe_total x.1 y.1

theorem pairLe_antisymm : ∀ x y : List Char × List Char,
    pairLe x y = true → pairLe y x = true → x = y := by
  intro x y hxy hyx
  unfold pairLe at hxy hyx
  by_cases h : x.1 = y.1
  · rw [if_pos h] at hxy
    rw [if_pos h.symm] at hyx
    exact Prod.ext h (lexLe_antisymm _ _ hxy hyx)
  · rw [if_neg h] at hxy
    rw [if_neg (fun hc => h hc.symm)] at hyx
    exact absurd (lexLe_antisymm _ _ hxy hyx) h

theorem pairLe_trans : ∀ x y z : List Char × List Char,
    pairLe x y = true → pairLe y z = true → pairLe x z = true := by
  intro x y z hxy hyz
  unfold pairLe at hxy hyz ⊢
  by_cases h1 : x.1 = y.1
  · by_cases h2 : y.1 = z.1
    · rw [if_pos h1] at hxy
      rw [if_pos h2] at hyz
      rw [if_pos (h1.trans h2)]
      exact lexLe_trans _ _ _ hxy hyz
    · rw [if_pos h1] at hxy
      rw [if_neg h2] at hyz
      rw [if_neg (fun hc => h2 (h1 ▸ hc)), h1]
      exact hyz
  · by_cases h2 : y.1 = z.1
    · rw [if_neg h1] at hxy
      rw [if_neg (fun hc => h1 (hc.trans h2.symm)), ← h2]
      exact hxy
    · rw [if_neg h1] at hxy
      rw [if_neg h2] at hyz
      by_cases h3 : x.1 = z.1
      · exact absurd (lexLe_antisymm _ _ hxy (h3 ▸ hyz)) h1
      · rw [if_neg h3]
        exact lexLe_trans _ _ _ hxy hyz

instance : IsTotal (List Char × List Char) PairLe :=
  ⟨fun a b => pairLe_total a b⟩

instance : IsTrans (List Char × List Char) PairLe :=
  ⟨fun a b c => pairLe_trans a b c⟩

instance : IsAntisymm (List Char × List Char) PairLe :=
  ⟨fun a b => pairLe_antisymm a b⟩

theorem insertionSort_eq_of_perm {a b : List (List Char × List Char)}
    (h : a.Perm b) :
    List.insertionSort PairLe a = List.insertionSort PairLe b :=
  List.eq_of_perm_of_sorted
    (((List.perm_insertionSort PairLe a).trans h).trans
      (List.perm_insertionSort PairLe b).symm)
    (List.sorted_insertionSort PairLe a)
    (List.sorted_insertionSort PairLe b)

/-- Two optional queries that are query-pair permutations of each other
(both absent, or both present with permuted decoded pair lists). -/
def QueryEquiv : Option (List Char) → Option (List Char) → Prop
  | none, none => True
  | some a, some b => (queryPairs a).Perm (queryPairs b)
  | _, _ => False

/-! ### List-processing lemmas for the URL model -/

theorem takeUntil_cons (p : Char → Bool) (c : Char) (cs : List Char) :
    takeUntil p (c :: cs) =
      if p c then ([], c :: cs)
      else (c :: (takeUntil p cs).1, (takeUntil p cs).2) := by
  rw [takeUntil]

theorem takeUntil_no_stop (p : Char → Bool) :
    ∀ l : List Char, (∀ c ∈ l, p c = false) → takeUntil p l = (l, []) := by
  intro l
  induction l with
  | nil => intro _; rfl
  | cons c cs ih =>
    intro h
    rw [takeUntil_cons, if_neg (by rw [h c (List.mem_cons_self c cs)]; simp),
      ih (fun x hx => h x (List.mem_cons_of_mem c hx))]

theorem takeUntil_append (p : Char → Bool) (xs : List Char) (y : Char) (ys : List Char)
    (hxs : ∀ c ∈ xs, p c = false) (hy : p y = true) :
    takeUntil p (xs ++ y :: ys) = (xs, y :: ys) := by
  induction xs with
  | nil =>
    rw [List.nil_append, takeUntil_cons, if_pos hy]
  | cons c cs ih =>
    rw [List.cons_append, takeUntil_cons,
      if_neg (by rw [hxs c (List.mem_cons_self c cs)]; simp),
      ih (fun x hx => hxs x (List.mem_cons_of_mem c hx))]

theorem takeUntil_fst_no_stop (p : Char → Bool) :
    ∀ l : List Char, ∀ c ∈ (takeUntil p l).1, p c = false := by
  intro l
  induction l with
  | nil => intro c hc; simp [takeUntil] at hc
  | cons a as ih =>
    intro c hc
    rw [takeUntil_cons] at hc
    by_cases hpa : p a = true
    · rw [if_pos hpa] at hc
      simp at hc
    · rw [if_neg hpa] at hc
      rcases List.mem_cons.mp hc with rfl | hc
      · exact Bool.eq_false_iff.mpr hpa
      · exact ih c hc

theorem takeUntil_fst_mem (p : Char → Bool) :
    ∀ l : List Char, ∀ c ∈ (takeUntil p l).1, c ∈ l := by
  intro l
  induction l with
  | nil => intro c hc; simp [takeUntil] at hc
  | cons a as ih =>
    intro c hc
    rw [takeUntil_cons] at hc
    by_cases hpa : p a = true
    · rw [if_pos hpa] at hc
      simp at hc
    · rw [if_neg hpa] at hc
      rcases List.mem_cons.mp hc with rfl | hc
      · exact List.mem_cons_self _ _
      · exact List.mem_cons_of_mem _ (ih c hc)

theorem takeUntil_snd_mem (p : Char → Bool) :
    ∀ l : List Char, ∀ c ∈ (takeUntil p l).2, c ∈ l := by
  intro l
  induction l with
  | nil => intro c hc; simp [takeUntil] at hc
  | cons a as ih =>
    intro c hc
    rw [takeUntil_cons] at hc
    by_cases hpa : p a = true
    · rw [if_pos hpa] at hc
      exact hc
    · rw [if_neg hpa] at hc
      exact List.mem_cons_of_mem _ (ih c hc)

theorem splitOnChar_cons (sep c : Char) (rest : List Char) :
    splitOnChar sep (c :: rest) =
      if c = sep then [] :: splitOnChar sep rest
      else
        match splitOnChar sep rest with
        | [] => [[c]]
        | h :: t => (c :: h) :: t := by
  rw [splitOnChar]

theorem splitOnChar_ne_nil (sep : Char) : ∀ l : List Char, splitOnChar sep l ≠ [] := by
  intro l
  induction l with
  | nil => simp [splitOnChar]
  | cons c cs ih =>
    rw [splitOnChar_cons]
    by_cases hc : c = sep
    · simp [hc]
    · rw [if_neg hc]
      cases hs : splitOnChar sep cs with
      | nil => exact absurd hs ih
      | cons h t => simp

theorem splitOnChar_cons_sep (sep : Char) (rest : List Char) :
    splitOnChar sep (sep :: rest) = [] :: splitOnChar sep rest := by
  rw [splitOnChar_cons, if_pos rfl]

theorem splitOnChar_cons_ne (sep c : Char) (rest : List Char) (h : c ≠ sep) :
    ∃ hd tl, splitOnChar sep rest = hd :: tl ∧
      splitOnChar sep (c :: rest) = (c :: hd) :: tl := by
  cases hs : splitOnChar sep rest with
  | nil => exact absurd hs (splitOnChar_ne_nil sep rest)
  | cons hd tl =>
    refine ⟨hd, tl, rfl, ?_⟩
    rw [splitOnChar_cons, if_neg h, hs]

theorem splitOnChar_no_sep (sep : Char) :
    ∀ l : List Char, sep ∉ l → splitOnChar sep l = [l] := by
  intro l
  induction l with
  | nil => intro _; rfl
  | cons c cs ih =>
    intro h
    have hc : c ≠ sep := fun hc => h (hc ▸ List.mem_cons_self c cs)
    obtain ⟨hd, tl, h1, h2⟩ := splitOnChar_cons_ne sep c cs hc
    rw [ih (fun hm => h (List.mem_cons_of_mem c hm))] at h1
    injection h1 with h1a h1b
    rw [h2, ← h1a, h1b.symm]

theorem splitOnChar_append (sep : Char) (xs ys : List Char) (h : sep ∉ xs) :
    splitOnChar sep (xs ++ sep :: ys) = xs :: splitOnChar sep ys := by
  induction xs with
  | nil => simpa using splitOnChar_cons_sep sep ys
  | cons c cs ih =>
    have hc : c ≠ sep := fun hc => h (hc ▸ List.mem_cons_self c cs)
    obtain ⟨hd, tl, h1, h2⟩ :=
      splitOnChar_cons_ne sep c (cs ++ sep :: ys) hc
    rw [ih (fun hm => h (List.mem_cons_of_mem c hm))] at h1
    injection h1 with h1a h1b
    rw [List.cons_append, h2, ← h1a, h1b.symm]

theorem splitOnChar_mem_sub (sep : Char) :
    ∀ l piece, piece ∈ splitOnChar sep l → ∀ c ∈ piece, c ∈ l := by
  intro l
  induction l with
  | nil =>
    intro piece hp c hc
    simp only [splitOnChar] at hp
    rw [List.mem_singleton.mp hp] at hc
    simp at hc
  | cons a as ih =>
    intro piece hp c hc
    by_cases ha : a = sep
    · rw [ha, splitOnChar_cons_sep] at hp
      rcases List.mem_cons.mp hp with rfl | hp
      · simp at hc
      · exact List.mem_cons_of_mem _ (ih piece hp c hc)
    · obtain ⟨hd, tl, h1, h2⟩ := splitOnChar_cons_ne sep a as ha
      rw [h2] at hp
      rcases List.mem_cons.mp hp with rfl | hp
      · rcases List.mem_cons.mp hc with rfl | hc
        · exact List.mem_cons_self _ _
        · exact List.mem_cons_of_mem _ (ih hd (h1 ▸ List.mem_cons_self hd tl) c hc)
      · exact List.mem_cons_of_mem _
          (ih piece (h1 ▸ List.mem_cons_of_mem hd hp) c hc)

theorem splitOnChar_no_sep_mem (sep : Char) :
    ∀ l piece, piece ∈ splitOnChar sep l → sep ∉ piece := by
  intro l
  induction l with
  | nil =>
    intro piece hp
    simp only [splitOnChar] at hp
    rw [List.mem_singleton.mp hp]
    simp
  | cons a as ih =>
    intro piece hp
    by_cases ha : a = sep
    · rw [ha, splitOnChar_cons_sep] at hp
      rcases List.mem_cons.mp hp with rfl | hp
      · simp
      · exact ih piece hp
    · obtain ⟨hd, tl, h1, h2⟩ := splitOnChar_cons_ne sep a as ha
      rw [h2] at hp
      rcases List.mem_cons.mp hp with rfl | hp
      · intro hmem
        rcases List.mem_cons.mp hmem with hs | hs
        · exact ha hs.symm
        · exact ih hd (h1 ▸ List.mem_cons_self hd tl) hs
      · exact ih piece (h1 ▸ List.mem_cons_of_mem hd hp)

theorem percentDecode_cons_ne (c : Char) (rest : List Char) (h : c ≠ '%') :
    percentDecode (c :: rest) = c :: percentDecode rest := by
  conv_lhs => rw [percentDecode.eq_def]
  split
  · next heq => exact absurd heq (by simp)
  · next c1 c2 r1 heq =>
    exfalso
    injection heq with h1 _
    exact h h1
  · next c1 r1 hcon heq =>
    injection heq with h1 h2
    rw [h1, h2]

theorem percentDecode_no_pct : ∀ l : List Char, '%' ∉ l → percentDecode l = l := by
  intro l
  induction l with
  | nil => intro _; rfl
  | cons c cs ih =>
    intro h
    have hc : c ≠ '%' := fun hcc => h (hcc ▸ List.mem_cons_self c cs)
    rw [percentDecode_cons_ne c cs hc, ih (fun hm => h (List.mem_cons_of_mem c hm))]

theorem plusToSpace_no_plus : ∀ l : List Char, '+' ∉ l → plusToSpace l = l := by
  intro l
  induction l with
  | nil => intro _; rfl
  | cons c cs ih =>
    intro h
    have hc : c ≠ '+' := fun hc => h (hc ▸ List.mem_cons_self c cs)
    unfold plusToSpace
    rw [List.map_cons, if_neg hc]
    have := ih (fun hm => h (List.mem_cons_of_mem c hm))
    unfold plusToSpace at this
    rw [this]

theorem decodePiece_id (l : List Char) (hpct : '%' ∉ l) (hplus : '+' ∉ l) :
    decodePiece l = l := by
  unfold decodePiece
  rw [plusToSpace_no_plus l hplus, percentDecode_no_pct l hpct]

theorem queryEncodeChar_self {c : Char} (h : queryChar c = true) :
    queryEncodeChar c = [c] := by
  unfold queryEncodeChar
  split
  · next hcond =>
    exfalso
    simp only [Bool.or_eq_true, decide_eq_true_eq] at hcond
    rcases hcond with ((((h1 | h1) | h1) | h1) | h1) | h1 <;>
      (subst h1; revert h; decide)
  · rfl

theorem encodeQuery_id : ∀ l : List Char, (∀ c ∈ l, queryChar c = true) →
    encodeQuery l = l := by
  intro l
  induction l with
  | nil => intro _; rfl
  | cons c cs ih =>
    intro h
    unfold encodeQuery
    rw [List.foldr_cons, queryEncodeChar_self (h c (List.mem_cons_self c cs))]
    have := ih (fun x hx => h x (List.mem_cons_of_mem c hx))
    unfold encodeQuery at this
    rw [this]
    rfl

theorem charsToNat_digits_aux :
    ∀ (L : List Nat) (a : Nat), (∀ d ∈ L, d < 10) →
      List.foldl (fun acc c => acc * 10 + (c.toNat - 48)) a
        ((L.map Nat.digitChar).reverse) = a * 10 ^ L.length + Nat.ofDigits 10 L := by
  have hdig : ∀ d, d < 10 → (Nat.digitChar d).toNat - 48 = d := by decide
  intro L
  induction L with
  | nil => intro a _; simp [Nat.ofDigits]
  | cons d ds ih =>
    intro a h
    rw [List.map_cons, List.reverse_cons, List.foldl_append]
    rw [ih a (fun x hx => h x (List.mem_cons_of_mem d hx))]
    simp only [List.foldl_cons, List.foldl_nil]
    rw [hdig d (h d (List.mem_cons_self d ds))]
    rw [Nat.ofDigits_cons]
    simp only [List.length_cons]
    ring_nf

theorem charsToNat_natToChars (n : Nat) : charsToNat (natToChars n) = n := by
  unfold natToChars
  by_cases hn : n = 0
  · rw [if_pos hn, hn]
    rfl
  · rw [if_neg hn]
    unfold charsToNat
    rw [charsToNat_digits_aux (Nat.digits 10 n) 0
      (fun d hd => Nat.digits_lt_base (by norm_num) hd)]
    rw [Nat.ofDigits_digits]
    ring

theorem natToChars_all_digit (n : Nat) :
    ∀ c ∈ natToChars n, c.isDigit = true := by
  have hdig : ∀ d, d < 10 → (Nat.digitChar d).isDigit = true := by decide
  intro c hc
  unfold natToChars at hc
  by_cases hn : n = 0
  · rw [if_pos hn] at hc
    rw [List.mem_singleton.mp hc]
    decide
  · rw [if_neg hn] at hc
    rw [List.mem_reverse] at hc
    obtain ⟨d, hd, rfl⟩ := List.mem_map.mp hc
    exact hdig d (Nat.digits_lt_base (by norm_num) hd)

theorem natToChars_ne_nil (n : Nat) : natToChars n ≠ [] := by
  unfold natToChars
  by_cases hn : n = 0
  · rw [if_pos hn]
    simp
  · rw [if_neg hn]
    simp [Nat.digits_ne_nil_iff_ne_zero.mpr hn]

theorem mem_of_mem_tail {α : Type} {c : α} {l : List α} (h : c ∈ l.tail) : c ∈ l := by
  cases l with
  | nil => simp at h
  | cons a as => exact List.mem_cons_of_mem _ h

theorem splitEqChar_append (k v : List Char) (hk : '=' ∉ k) :
    splitEqChar (k ++ '=' :: v) = (k, v) := by
  unfold splitEqChar
  rw [takeUntil_append (fun c => c = '=') k '=' v
    (fun c hc => by
      rcases eq_or_ne c '=' with rfl | hne
      · exact absurd hc hk
      · simp [hne])
    (by simp)]
  rfl

theorem queryPairs_mem {q : List Char} {kv : List Char × List Char}
    (h : kv ∈ queryPairs q) :
    ∃ piece, piece ∈ splitOnChar '&' q ∧ piece ≠ [] ∧
      kv = (decodePiece (splitEqChar piece).1, decodePiece (splitEqChar piece).2) := by
  unfold queryPairs at h
  obtain ⟨piece, hpc, hkv⟩ := List.mem_map.mp h
  have hf := List.mem_filter.mp hpc
  exact ⟨piece, hf.1, by simpa using hf.2, hkv.symm⟩

theorem queryPairs_props {q : List Char} (hqc : ∀ c ∈ q, queryChar c = true)
    (hpct : '%' ∉ q) (hplus : '+' ∉ q) :
    ∀ kv ∈ queryPairs q,
      '&' ∉ kv.1 ∧ '&' ∉ kv.2 ∧ '=' ∉ kv.1 ∧
      '%' ∉ kv.1 ∧ '+' ∉ kv.1 ∧ '%' ∉ kv.2 ∧ '+' ∉ kv.2 ∧
      (∀ c ∈ kv.1, queryChar c = true) ∧ (∀ c ∈ kv.2, queryChar c = true) := by
  intro kv hkv
  obtain ⟨piece, hpc, hne, hkveq⟩ := queryPairs_mem hkv
  have hpsub : ∀ c ∈ piece, c ∈ q := splitOnChar_mem_sub '&' q piece hpc
  have hpamp : '&' ∉ piece := splitOnChar_no_sep_mem '&' q piece hpc
  have hksub : ∀ c ∈ (splitEqChar piece).1, c ∈ piece := by
    intro c hc
    exact takeUntil_fst_mem _ piece c hc
  have hvsub : ∀ c ∈ (splitEqChar piece).2, c ∈ piece := by
    intro c hc
    exact takeUntil_snd_mem _ piece c (mem_of_mem_tail hc)
  have hkeq : '=' ∉ (splitEqChar piece).1 := by
    intro hc
    have := takeUntil_fst_no_stop (fun c => c = '=') piece _ hc
    simp at this
  have hkpct : '%' ∉ (splitEqChar piece).1 := fun hc => hpct (hpsub _ (hksub _ hc))
  have hkplus : '+' ∉ (splitEqChar piece).1 := fun hc => hplus (hpsub _ (hksub _ hc))
  have hvpct : '%' ∉ (splitEqChar piece).2 := fun hc => hpct (hpsub _ (hvsub _ hc))
  have hvplus : '+' ∉ (splitEqChar piece).2 := fun hc => hplus (hpsub _ (hvsub _ hc))
  have hdk : decodePiece (splitEqChar piece).1 = (splitEqChar piece).1 :=
    decodePiece_id _ hkpct hkplus
  have hdv : decodePiece (splitEqChar piece).2 = (splitEqChar piece).2 :=
    decodePiece_id _ hvpct hvplus
  rw [hkveq, hdk, hdv]
  refine ⟨fun hc => hpamp (hksub _ hc), fun hc => hpamp (hvsub _ hc), hkeq,
    hkpct, hkplus, hvpct, hvplus,
    fun c hc => hqc c (hpsub _ (hksub _ hc)),
    fun c hc => hqc c (hpsub _ (hvsub _ hc))⟩

theorem queryPairs_joinPairs :
    ∀ params : List (List Char × List Char),
      (∀ kv ∈ params, '&' ∉ kv.1 ∧ '&' ∉ kv.2 ∧ '=' ∉ kv.1 ∧
        '%' ∉ kv.1 ∧ '+' ∉ kv.1 ∧ '%' ∉ kv.2 ∧ '+' ∉ kv.2) →
      queryPairs (joinPairs params) = params := by
  intro params
  induction params with
  | nil => intro _; rfl
  | cons kv rest ih =>
    intro h
    obtain ⟨k, v⟩ := kv
    have hkv := h (k, v) (List.mem_cons_self _ _)
    have hsep : '&' ∉ k ++ '=' :: v := by
      intro hm
      rcases List.mem_append.mp hm with hm | hm
      · exact hkv.1 hm
      · rcases List.mem_cons.mp hm with he | hm
        · exact absurd he (by decide)
        · exact hkv.2.1 hm
    have hpiece : ¬ (k ++ '=' :: v).isEmpty = true := by simp
    have hsplit : splitEqChar (k ++ '=' :: v) = (k, v) :=
      splitEqChar_append k v hkv.2.2.1
    have hdk : decodePiece k = k := decodePiece_id k hkv.2.2.2.1 hkv.2.2.2.2.1
    have hdv : decodePiece v = v := decodePiece_id v hkv.2.2.2.2.2.1 hkv.2.2.2.2.2.2
    cases rest with
    | nil =>
      show queryPairs (k ++ '=' :: v) = [(k, v)]
      unfold queryPairs
      rw [splitOnChar_no_sep '&' _ hsep]
      simp [hpiece, hsplit, hdk, hdv]
    | cons kv2 rest2 =>
      have hrest := ih (fun x hx => h x (List.mem_cons_of_mem _ hx))
      have hshape : joinPairs ((k, v) :: kv2 :: rest2) =
          (k ++ '=' :: v) ++ '&' :: joinPairs (kv2 :: rest2) := by
        show k ++ '=' :: v ++ '&' :: joinPairs (kv2 :: rest2) = _
        simp
      rw [hshape]
      unfold queryPairs
      rw [splitOnChar_append '&' _ _ hsep]
      unfold queryPairs at hrest
      simp only [List.filter_cons, hpiece, Bool.not_false, if_pos, List.map_cons,
        hsplit, hdk, hdv, hrest]

theorem joinPairs_mem_char :
    ∀ (params : List (List Char × List Char)) (c : Char), c ∈ joinPairs params →
      (∃ kv ∈ params, c ∈ kv.1 ∨ c ∈ kv.2) ∨ c = '=' ∨ c = '&' := by
  intro params
  induction params with
  | nil => intro c hc; simp [joinPairs] at hc
  | cons kv rest ih =>
    intro c hc
    cases rest with
    | nil =>
      rw [show joinPairs [kv] = kv.1 ++ '=' :: kv.2 from rfl] at hc
      rcases List.mem_append.mp hc with h | h
      · exact Or.inl ⟨kv, List.mem_cons_self _ _, Or.inl h⟩
      · rcases List.mem_cons.mp h with rfl | h
        · exact Or.inr (Or.inl rfl)
        · exact Or.inl ⟨kv, List.mem_cons_self _ _, Or.inr h⟩
    | cons kv2 rest2 =>
      rw [show joinPairs (kv :: kv2 :: rest2) =
        kv.1 ++ '=' :: kv.2 ++ '&' :: joinPairs (kv2 :: rest2) from rfl] at hc
      rcases List.mem_append.mp hc with h | h
      · rcases List.mem_append.mp h with h | h
        · exact Or.inl ⟨kv, List.mem_cons_self _ _, Or.inl h⟩
        · rcases List.mem_cons.mp h with rfl | h
          · exact Or.inr (Or.inl rfl)
          · exact Or.inl ⟨kv, List.mem_cons_self _ _, Or.inr h⟩
      · rcases List.mem_cons.mp h with rfl | h
        · exact Or.inr (Or.inr rfl)
        · rcases ih c h with ⟨kv3, hm3, h3⟩ | h3
          · exact Or.inl ⟨kv3, List.mem_cons_of_mem _ hm3, h3⟩
          · exact Or.inr h3

theorem joinPairs_all_query (params : List (List Char × List Char))
    (h : ∀ kv ∈ params, (∀ c ∈ kv.1, queryChar c = true) ∧
      (∀ c ∈ kv.2, queryChar c = true)) :
    ∀ c ∈ joinPairs params, queryChar c = true := by
  intro c hc
  rcases joinPairs_mem_char params c hc with ⟨kv, hm, hin | hin⟩ | rfl | rfl
  · exact (h kv hm).1 c hin
  · exact (h kv hm).2 c hin
  · decide
  · decide

/-! ### Well-formedness of parsed URLs and the parse/serialize round trip -/

theorem not_stop1_of_host {c : Char} (h : hostChar c = true) :
    (decide (c = '/') || decide (c = '?') || decide (c = '#')) = false := by
  rcases eq_or_ne c '/' with rfl | h1
  · exact absurd h (by decide)
  rcases eq_or_ne c '?' with rfl | h2
  · exact absurd h (by decide)
  rcases eq_or_ne c '#' with rfl | h3
  · exact absurd h (by decide)
  simp [h1, h2, h3]

theorem not_stop1_of_digit {c : Char} (h : c.isDigit = true) :
    (decide (c = '/') || decide (c = '?') || decide (c = '#')) = false := by
  rcases eq_or_ne c '/' with rfl | h1
  · exact absurd h (by decide)
  rcases eq_or_ne c '?' with rfl | h2
  · exact absurd h (by decide)
  rcases eq_or_ne c '#' with rfl | h3
  · exact absurd h (by decide)
  simp [h1, h2, h3]

theorem not_colon_of_host {c : Char} (h : hostChar c = true) :
    (decide (c = ':')) = false := by
  rcases eq_or_ne c ':' with rfl | h1
  · exact absurd h (by decide)
  · simp [h1]

theorem not_stop2_of_path {c : Char} (h : pathChar c = true) :
    (decide (c = '?') || decide (c = '#')) = false := by
  rcases eq_or_ne c '?' with rfl | h1
  · exact absurd h (by decide)
  rcases eq_or_ne c '#' with rfl | h2
  · exact absurd h (by decide)
  simp [h1, h2]

theorem not_hash_of_query {c : Char} (h : queryChar c = true) :
    (decide (c = '#')) = false := by
  rcases eq_or_ne c '#' with rfl | h1
  · exact absurd h (by decide)
  · simp [h1]

/-- Invariants of every `parseUrl` result; exactly what the serializer needs
for the parse round trip. -/
structure UrlWF (u : ParsedUrl) : Prop where
  scheme_ok : u.scheme = "http" ∨ u.scheme = "https"
  host_ne : u.host ≠ []
  host_ok : ∀ c ∈ u.host, hostChar c = true
  port_ok : ∀ p, u.port = some p → p < 65536 ∧
    ¬ ((u.scheme = "http" ∧ p = 80) ∨ (u.scheme = "https" ∧ p = 443))
  path_head : ∃ rest, u.path = '/' :: rest
  path_ok : ∀ c ∈ u.path, pathChar c = true
  path_nodot : hasDotSegment u.path = false
  query_ok : ∀ q, u.query = some q → ∀ c ∈ q, queryChar c = true

theorem parsePort_none_of_port (scheme : String) :
    parsePort scheme [] = some none := rfl

theorem parsePort_cons (scheme : String) (ds : List Char) :
    parsePort scheme (':' :: ds) =
      if (!ds.isEmpty && ds.all Char.isDigit) = true then
        if charsToNat ds ≥ 65536 then none
        else if (scheme = "http" ∧ charsToNat ds = 80) ∨
            (scheme = "https" ∧ charsToNat ds = 443) then some none
        else some (some (charsToNat ds))
      else none := rfl

theorem parsePort_cons_ne (scheme : String) (c : Char) (ds : List Char) (h : c ≠ ':') :
    parsePort scheme (c :: ds) = none := by
  conv_lhs => rw [parsePort.eq_def]
  split
  · next heq => exact absurd heq (by simp)
  · next ds2 heq =>
    exfalso
    injection heq with h1 _
    exact h h1
  · rfl

theorem parsePort_roundtrip (scheme : String) (p : Nat) (hlt : p < 65536)
    (hnd : ¬ ((scheme = "http" ∧ p = 80) ∨ (scheme = "https" ∧ p = 443))) :
    parsePort scheme (':' :: natToChars p) = some (some p) := by
  rw [parsePort_cons]
  rw [if_pos (by
    simp only [Bool.and_eq_true]
    constructor
    · simp [natToChars_ne_nil p]
    · exact List.all_eq_true.mpr (fun c hc => natToChars_all_digit p c hc))]
  rw [charsToNat_natToChars p]
  rw [if_neg (by omega), if_neg hnd]

theorem parsePort_some_extract {scheme : String} {pp : List Char} {port : Option Nat}
    (h : parsePort scheme pp = some port) :
    ∀ p, port = some p → p < 65536 ∧
      ¬ ((scheme = "http" ∧ p = 80) ∨ (scheme = "https" ∧ p = 443)) := by
  intro p hp
  subst hp
  cases pp with
  | nil =>
    rw [parsePort_none_of_port] at h
    injection h with h
    exact absurd h (by simp)
  | cons c ds =>
    rcases eq_or_ne c ':' with rfl | hne
    · rw [parsePort_cons] at h
      split at h
      · split at h
        · exact absurd h (by simp)
        · split at h
          · injection h with h
            exact absurd h (by simp)
          · next hge hnd =>
            injection h with h
            injection h with h
            constructor
            · omega
            · rw [← h]
              exact hnd
      · exact absurd h (by simp)
    · rw [parsePort_cons_ne scheme c ds hne] at h
      exact absurd h (by simp)

theorem parsePath_shape {r1 path r2 : List Char} (h : parsePath r1 = (path, r2)) :
    ∃ t, path = '/' :: t := by
  unfold parsePath at h
  split at h
  · rw [takeUntil_cons] at h
    rw [if_neg (by decide)] at h
    injection h with h1 _
    exact ⟨_, h1.symm⟩
  · injection h with h1 _
    exact ⟨[], h1.symm⟩

theorem parseTail_some {scheme : String} {host : List Char} {port : Option Nat}
    {path r2 : List Char} {u : ParsedUrl}
    (h : parseTail scheme host port path r2 = some u) :
    u.scheme = scheme ∧ u.host = host ∧ u.port = port ∧ u.path = path ∧
    ∀ q, u.query = some q → ∀ c ∈ q, queryChar c = true := by
  unfold parseTail at h
  split at h
  · injection h with h
    subst h
    exact ⟨rfl, rfl, rfl, rfl, fun q hq => by simp at hq⟩
  · rcases hq : takeUntil (fun c => c = '#') ‹List Char› with ⟨q, r3⟩
    rw [hq] at h
    simp only [] at h
    split at h
    · exact absurd h (by simp)
    · next hqc =>
      split at h
      · injection h with h
        subst h
        refine ⟨rfl, rfl, rfl, rfl, fun q2 hq2 c hc => ?_⟩
        simp only [Option.some_inj] at hq2
        subst hq2
        have := List.all_eq_true.mp (by simpa using hqc) c
        simpa using this hc
      · injection h with h
        subst h
        refine ⟨rfl, rfl, rfl, rfl, fun q2 hq2 c hc => ?_⟩
        simp only [Option.some_inj] at hq2
        subst hq2
        have := List.all_eq_true.mp (by simpa using hqc) c
        simpa using this hc
      · exact absurd h (by simp)
  · injection h with h
    subst h
    exact ⟨rfl, rfl, rfl, rfl, fun q hq => by simp at hq⟩
  · exact absurd h (by simp)

theorem parseAfterScheme_wf {scheme : String} {rest : List Char} {u : ParsedUrl}
    (hs : scheme = "http" ∨ scheme = "https")
    (h : parseAfterScheme scheme rest = some u) : UrlWF u := by
  unfold parseAfterScheme at h
  rcases h1 : takeUntil (fun c => c = '/' || c = '?' || c = '#') rest with ⟨auth, r1⟩
  rw [h1] at h
  simp only [] at h
  rcases h2 : takeUntil (fun c => c = ':') auth with ⟨host, portPart⟩
  rw [h2] at h
  simp only [] at h
  split at h
  · exact absurd h (by simp)
  · next hhost =>
    rcases h3 : parsePort scheme portPart with _ | port
    · rw [h3] at h
      exact absurd h (by simp)
    · rw [h3] at h
      simp only [] at h
      rcases h4 : parsePath r1 with ⟨path, r2⟩
      rw [h4] at h
      simp only [] at h
      split at h
      · exact absurd h (by simp)
      · next hpath =>
        obtain ⟨hus, huh, hup, hupath, huq⟩ := parseTail_some h
        simp only [Bool.or_eq_true, not_or, Bool.not_eq_true] at hhost hpath
        refine ⟨hus ▸ hs, ?_, ?_, ?_, ?_, ?_, ?_, huq⟩
        · rw [huh]
          intro hc
          rw [hc] at hhost
          simp at hhost
        · intro c hc
          rw [huh] at hc
          have := List.all_eq_true.mp (by simpa using hhost.2) c
          simpa using this hc
        · intro p hp
          rw [hus]
          exact parsePort_some_extract h3 p (hup ▸ hp)
        · rw [hupath]
          exact parsePath_shape h4
        · intro c hc
          rw [hupath] at hc
          have := List.all_eq_true.mp (by simpa using hpath.1) c
          simpa using this hc
        · rw [hupath]
          exact hpath.2

theorem parse_wf {s : List Char} {u : ParsedUrl} (h : parseUrl s = some u) :
    UrlWF u := by
  unfold parseUrl at h
  split at h
  · exact parseAfterScheme_wf (Or.inr rfl) h
  · split at h
    · exact parseAfterScheme_wf (Or.inl rfl) h
    · exact absurd h (by simp)

/-- C3 counterexample: `normalize_url` is not idempotent.  A percent-encoded
ampersand in a query value is decoded by `query_pairs` and re-inserted
verbatim by `set_query`, so the first normalization of
`https://ex.com/f?a=1%262` yields `https://ex.com/f?a=1&2`, which a second
normalization re-splits at the bare `&` into two pairs and reorders to
`https://ex.com/f?2=&a=1` — a different string. -/
theorem normalize_url_not_idempotent_counterexample :
    normalize_url "https://ex.com/f?a=1%262" = .ok "https://ex.com/f?a=1&2" ∧
    normalize_url "https://ex.com/f?a=1&2" = .ok "https://ex.com/f?2=&a=1" ∧
    ("https://ex.com/f?a=1&2" : String) ≠ "https://ex.com/f?2=&a=1" :=
  ⟨by rfl, by rfl, by decide⟩

theorem normalize_url_equiv (x y : String) (u v : ParsedUrl)
    (hx : parseUrl x.data = some u) (hy : parseUrl y.data = some v)
    (hs : u.scheme = v.scheme) (hh : u.host = v.host) (hp : u.port = v.port)
    (hpath : u.path = v.path) (hq : QueryEquiv u.query v.query) :
    normalize_url x = normalize_url y := by
  unfold normalize_url
  rw [hx, hy]
  obtain ⟨us, uh, up, upath, uq, uf⟩ := u
  obtain ⟨vs, vh, vp, vpath, vq, vf⟩ := v
  simp only at hs hh hp hpath hq
  subst hs
  subst hh
  subst hp
  subst hpath
  cases uq with
  | none =>
    cases vq with
    | none => rfl
    | some qb => exact absurd hq (by simp [QueryEquiv])
  | some qa =>
    cases vq with
    | none => exact absurd hq (by simp [QueryEquiv])
    | some qb =>
      have hperm : (queryPairs qa).Perm (queryPairs qb) := hq
      have hsort := insertionSort_eq_of_perm hperm
      by_cases hd : (us = "http" ∧ up = some 80 ∨ us = "https" ∧ up = some 443)
      · simp only [normalizeParsed, if_pos hd, hsort]
      · simp only [normalizeParsed, if_neg hd, hsort]

theorem parsePath_slash (xs : List Char) :
    parsePath ('/' :: xs) = takeUntil (fun c => c = '?' || c = '#') ('/' :: xs) := rfl

theorem parseTail_nil (scheme : String) (host : List Char) (port : Option Nat)
    (path : List Char) :
    parseTail scheme host port path [] = some ⟨scheme, host, port, path, none, none⟩ := rfl

theorem parseTail_query (scheme : String) (host : List Char) (port : Option Nat)
    (path q : List Char) (hq : ∀ c ∈ q, queryChar c = true) :
    parseTail scheme host port path ('?' :: q) =
      some ⟨scheme, host, port, path, some q, none⟩ := by
  have hall : q.all queryChar = true := by
    rw [List.all_eq_true]
    intro c hc
    simpa using hq c hc
  have h0 : parseTail scheme host port path ('?' :: q) =
      (match takeUntil (fun c => c = '#') q with
       | (qq, r3) =>
         if !qq.all queryChar then none
         else
           match r3 with
           | [] => some (⟨scheme, host, port, path, some qq, none⟩ : ParsedUrl)
           | '#' :: f => some ⟨scheme, host, port, path, some qq, some f⟩
           | _ => none) := rfl
  rw [h0, takeUntil_no_stop _ q (fun c hc => not_hash_of_query (hq c hc))]
  simp only []
  rw [hall]
  rfl

theorem parsePort_default (scheme : String) (dp : Nat)
    (hd : (scheme = "http" ∧ dp = 80) ∨ (scheme = "https" ∧ dp = 443)) :
    parsePort scheme (':' :: natToChars dp) = some none := by
  have hlt : dp < 65536 := by rcases hd with ⟨_, h⟩ | ⟨_, h⟩ <;> omega
  rw [parsePort_cons]
  rw [if_pos (by
    simp only [Bool.and_eq_true]
    constructor
    · simp [natToChars_ne_nil dp]
    · exact List.all_eq_true.mpr (fun c hc => natToChars_all_digit dp c hc))]
  rw [charsToNat_natToChars dp]
  rw [if_neg (by omega), if_pos hd]

/-- Parsing is a retraction of serialization at the `parseAfterScheme` level:
an authority built from a well-formed host, a port rendering accepted by
`parsePort`, a well-formed path and a well-formed query parses back to
exactly its components. -/
theorem parseAfterScheme_roundtrip (scheme : String) (host pl : List Char)
    (port : Option Nat) (pt : List Char) (query : Option (List Char))
    (hhost_ne : host ≠ [])
    (hhost_ok : ∀ c ∈ host, hostChar c = true)
    (hpl1 : ∀ c ∈ pl, (decide (c = '/') || decide (c = '?') || decide (c = '#')) = false)
    (hpl2 : takeUntil (fun c => c = ':') (host ++ pl) = (host, pl))
    (hpl3 : parsePort scheme pl = some port)
    (hpath_ok : ∀ c ∈ ('/' :: pt), pathChar c = true)
    (hnodot : hasDotSegment ('/' :: pt) = false)
    (hq_ok : ∀ q, query = some q → ∀ c ∈ q, queryChar c = true) :
    parseAfterScheme scheme (host ++ (pl ++ (('/' :: pt) ++ qtailL query))) =
      some ⟨scheme, host, port, '/' :: pt, query, none⟩ := by
  have hxs1 : ∀ c ∈ host ++ pl,
      (decide (c = '/') || decide (c = '?') || decide (c = '#')) = false := by
    intro c hc
    rcases List.mem_append.mp hc with hc | hc
    · exact not_stop1_of_host (hhost_ok c hc)
    · exact hpl1 c hc
  have hlist : host ++ (pl ++ (('/' :: pt) ++ qtailL query)) =
      (host ++ pl) ++ ('/' :: (pt ++ qtailL query)) := by
    simp [List.append_assoc]
  have h1 : takeUntil (fun c => c = '/' || c = '?' || c = '#')
      ((host ++ pl) ++ ('/' :: (pt ++ qtailL query))) =
      (host ++ pl, '/' :: (pt ++ qtailL query)) :=
    takeUntil_append _ _ _ _ hxs1 (by decide)
  have hne : host.isEmpty = false := by
    cases host with
    | nil => exact absurd rfl hhost_ne
    | cons a as => rfl
  have hall : host.all hostChar = true := by
    rw [List.all_eq_true]
    intro c hc
    simpa using hhost_ok c hc
  have hpall : ('/' :: pt).all pathChar = true := by
    rw [List.all_eq_true]
    intro c hc
    simpa using hpath_ok c hc
  have h4 : parsePath ('/' :: (pt ++ qtailL query)) = ('/' :: pt, qtailL query) := by
    cases query with
    | none =>
      rw [show qtailL none = [] from rfl, List.append_nil, parsePath_slash]
      exact takeUntil_no_stop _ _ (fun c hc => not_stop2_of_path (hpath_ok c hc))
    | some q =>
      rw [parsePath_slash]
      rw [show ('/' :: (pt ++ qtailL (some q))) = ('/' :: pt) ++ ('?' :: q) from rfl]
      exact takeUntil_append _ _ _ _
        (fun c hc => not_stop2_of_path (hpath_ok c hc)) (by decide)
  unfold parseAfterScheme
  rw [hlist, h1]
  simp only []
  rw [hpl2]
  simp only []
  rw [if_neg (by rw [hne, hall]; simp)]
  rw [hpl3]
  simp only []
  rw [h4]
  simp only []
  rw [if_neg (by rw [hpall, hnodot]; simp)]
  cases query with
  | none => exact parseTail_nil scheme host port ('/' :: pt)
  | some q => exact parseTail_query scheme host port ('/' :: pt) q (hq_ok q rfl)

theorem parseUrl_http (rest : List Char) :
    parseUrl ("http".data ++ ':' :: '/' :: '/' :: rest) = parseAfterScheme "http" rest := by
  have h1 : "https://".data.isPrefixOf ("http".data ++ ':' :: '/' :: '/' :: rest) =
      false := rfl
  have h2 : "http://".data.isPrefixOf ("http".data ++ ':' :: '/' :: '/' :: rest) =
      true := by
    show List.isPrefixOf ('h' :: 't' :: 't' :: 'p' :: ':' :: '/' :: '/' :: [])
        ('h' :: 't' :: 't' :: 'p' :: ':' :: '/' :: '/' :: rest) = true
    simp only [List.isPrefixOf_cons₂, List.isPrefixOf_nil_left]
    decide
  unfold parseUrl
  rw [h1, h2]
  rw [if_neg (by decide), if_pos rfl]
  rw [show ("http".data ++ ':' :: '/' :: '/' :: rest).drop 7 = rest from rfl]

theorem parseUrl_https (rest : List Char) :
    parseUrl ("https".data ++ ':' :: '/' :: '/' :: rest) = parseAfterScheme "https" rest := by
  have h1 : "https://".data.isPrefixOf ("https".data ++ ':' :: '/' :: '/' :: rest) =
      true := by
    show List.isPrefixOf ('h' :: 't' :: 't' :: 'p' :: 's' :: ':' :: '/' :: '/' :: [])
        ('h' :: 't' :: 't' :: 'p' :: 's' :: ':' :: '/' :: '/' :: rest) = true
    simp only [List.isPrefixOf_cons₂, List.isPrefixOf_nil_left]
    decide
  unfold parseUrl
  rw [h1]
  rw [if_pos rfl]
  rw [show ("https".data ++ ':' :: '/' :: '/' :: rest).drop 8 = rest from rfl]

/-- Serialization followed by parsing is the identity on well-formed parsed
URLs that carry no fragment. -/
theorem parse_serialize {u : ParsedUrl} (hwf : UrlWF u) (hf : u.fragment = none) :
    parseUrl (serializeUrl u) = some u := by
  obtain ⟨scheme, host, port, path, query, frag⟩ := u
  obtain ⟨pt, hpt⟩ := hwf.path_head
  simp only at hf hpt
  subst hf
  subst hpt
  have hpl1 : ∀ c ∈ portL port,
      (decide (c = '/') || decide (c = '?') || decide (c = '#')) = false := by
    cases port with
    | none => intro c hc; simp [portL] at hc
    | some p =>
      intro c hc
      simp only [portL] at hc
      rcases List.mem_cons.mp hc with rfl | hc
      · decide
      · exact not_stop1_of_digit (natToChars_all_digit p c hc)
  have hpl2 : takeUntil (fun c => c = ':') (host ++ portL port) = (host, portL port) := by
    cases port with
    | none =>
      rw [show portL none = [] from rfl, List.append_nil]
      exact takeUntil_no_stop _ host (fun c hc => not_colon_of_host (hwf.host_ok c hc))
    | some p =>
      exact takeUntil_append _ _ _ _
        (fun c hc => not_colon_of_host (hwf.host_ok c hc)) (by decide)
  have hser : serializeUrl ⟨scheme, host, port, '/' :: pt, query, none⟩ =
      scheme.data ++ ':' :: '/' :: '/' ::
        (host ++ (portL port ++ (('/' :: pt) ++ qtailL query))) := by
    simp only [serializeUrl, ftailL, List.append_nil]
  rw [hser]
  have hpl3 : parsePort scheme (portL port) = some port := by
    cases port with
    | none => exact parsePort_none_of_port scheme
    | some p =>
      obtain ⟨hlt, hnd⟩ := hwf.port_ok p rfl
      exact parsePort_roundtrip scheme p hlt hnd
  rcases hwf.scheme_ok with hs | hs
  · simp only at hs
    subst hs
    rw [parseUrl_http]
    exact parseAfterScheme_roundtrip "http" host (portL port) port pt query
      hwf.host_ne hwf.host_ok hpl1 hpl2 hpl3 hwf.path_ok hwf.path_nodot hwf.query_ok
  · simp only at hs
    subst hs
    rw [parseUrl_https]
    exact parseAfterScheme_roundtrip "https" host (portL port) port pt query
      hwf.host_ne hwf.host_ok hpl1 hpl2 hpl3 hwf.path_ok hwf.path_nodot hwf.query_ok

/-- `normalizeParsed` produces a well-formed, fragment-free parsed URL and is
its own fixpoint, provided the query carries no `%` escape and no `+` (so the
decoded pairs re-serialize verbatim). -/
theorem normalizeParsed_wf {u : ParsedUrl} (hwf : UrlWF u)
    (hq : ∀ q, u.query = some q → '%' ∉ q ∧ '+' ∉ q) :
    UrlWF (normalizeParsed u) ∧ (normalizeParsed u).fragment = none ∧
      normalizeParsed (normalizeParsed u) = normalizeParsed u := by
  obtain ⟨scheme, host, port, path, query, frag⟩ := u
  have hd : ¬ ((scheme = "http" ∧ port = some 80) ∨
      (scheme = "https" ∧ port = some 443)) := by
    rintro (⟨h1, h2⟩ | ⟨h1, h2⟩)
    · exact (hwf.port_ok 80 h2).2 (Or.inl ⟨h1, rfl⟩)
    · exact (hwf.port_ok 443 h2).2 (Or.inr ⟨h1, rfl⟩)
  cases query with
  | none =>
    have hN : ∀ fr : Option (List Char),
        normalizeParsed ⟨scheme, host, port, path, none, fr⟩ =
          ⟨scheme, host, port, path, none, none⟩ := by
      intro fr
      simp only [normalizeParsed, if_neg hd]
    refine ⟨?_, ?_, ?_⟩
    · rw [hN frag]
      exact ⟨hwf.scheme_ok, hwf.host_ne, hwf.host_ok, hwf.port_ok, hwf.path_head,
        hwf.path_ok, hwf.path_nodot, fun q2 hq2 => nomatch hq2⟩
    · rw [hN frag]
    · rw [hN frag, hN none]
  | some q =>
    obtain ⟨hpct, hplus⟩ := hq q rfl
    have hqc : ∀ c ∈ q, queryChar c = true := hwf.query_ok q rfl
    have hprops := queryPairs_props hqc hpct hplus
    have hparams : ∀ kv ∈ List.insertionSort PairLe (queryPairs q),
        '&' ∉ kv.1 ∧ '&' ∉ kv.2 ∧ '=' ∉ kv.1 ∧
        '%' ∉ kv.1 ∧ '+' ∉ kv.1 ∧ '%' ∉ kv.2 ∧ '+' ∉ kv.2 ∧
        (∀ c ∈ kv.1, queryChar c = true) ∧ (∀ c ∈ kv.2, queryChar c = true) :=
      fun kv hm => hprops kv ((List.perm_insertionSort PairLe (queryPairs q)).mem_iff.mp hm)
    by_cases hnil : List.insertionSort PairLe (queryPairs q) = []
    · have hN : ∀ fr : Option (List Char),
          normalizeParsed ⟨scheme, host, port, path, some q, fr⟩ =
            ⟨scheme, host, port, path, none, none⟩ := by
        intro fr
        simp only [normalizeParsed, if_neg hd, if_neg (not_not_intro hnil)]
      refine ⟨?_, ?_, ?_⟩
      · rw [hN frag]
        exact ⟨hwf.scheme_ok, hwf.host_ne, hwf.host_ok, hwf.port_ok, hwf.path_head,
          hwf.path_ok, hwf.path_nodot, fun q2 hq2 => nomatch hq2⟩
      · rw [hN frag]
      · rw [hN frag]
        have hN0 : normalizeParsed ⟨scheme, host, port, path, none, none⟩ =
            (⟨scheme, host, port, path, none, none⟩ : ParsedUrl) := by
          simp only [normalizeParsed, if_neg hd]
        rw [hN0]
    · have hqc2 : ∀ c ∈ joinPairs (List.insertionSort PairLe (queryPairs q)),
          queryChar c = true :=
        joinPairs_all_query _ (fun kv hm => ⟨(hparams kv hm).2.2.2.2.2.2.2.1,
          (hparams kv hm).2.2.2.2.2.2.2.2⟩)
      have henc : encodeQuery (joinPairs (List.insertionSort PairLe (queryPairs q))) =
          joinPairs (List.insertionSort PairLe (queryPairs q)) :=
        encodeQuery_id _ hqc2
      have hqp : queryPairs (joinPairs (List.insertionSort PairLe (queryPairs q))) =
          List.insertionSort PairLe (queryPairs q) :=
        queryPairs_joinPairs _ (fun kv hm => ⟨(hparams kv hm).1, (hparams kv hm).2.1,
          (hparams kv hm).2.2.1, (hparams kv hm).2.2.2.1, (hparams kv hm).2.2.2.2.1,
          (hparams kv hm).2.2.2.2.2.1, (hparams kv hm).2.2.2.2.2.2.1⟩)
      have hresort : List.insertionSort PairLe (List.insertionSort PairLe (queryPairs q)) =
          List.insertionSort PairLe (queryPairs q) :=
        List.eq_of_perm_of_sorted (List.perm_insertionSort PairLe _)
          (List.sorted_insertionSort PairLe _)
          (List.sorted_insertionSort PairLe (queryPairs q))
      have hN : ∀ fr : Option (List Char),
          normalizeParsed ⟨scheme, host, port, path, some q, fr⟩ =
            ⟨scheme, host, port, path,
              some (joinPairs (List.insertionSort PairLe (queryPairs q))), none⟩ := by
        intro fr
        simp only [normalizeParsed, if_neg hd, if_pos hnil, henc]
      refine ⟨?_, ?_, ?_⟩
      · rw [hN frag]
        refine ⟨hwf.scheme_ok, hwf.host_ne, hwf.host_ok, hwf.port_ok, hwf.path_head,
          hwf.path_ok, hwf.path_nodot, ?_⟩
        intro q2 hq2 c hc
        have hq2e : joinPairs (List.insertionSort PairLe (queryPairs q)) = q2 :=
          Option.some_inj.mp hq2
        rw [← hq2e] at hc
        exact hqc2 c hc
      · rw [hN frag]
      · rw [hN frag]
        have hN2 : normalizeParsed ⟨scheme, host, port, path,
            some (joinPairs (List.insertionSort PairLe (queryPairs q))), none⟩ =
            (⟨scheme, host, port, path,
              some (joinPairs (List.insertionSort PairLe (queryPairs q))), none⟩ :
              ParsedUrl) := by
          simp only [normalizeParsed, if_neg hd, hqp, hresort, if_pos hnil, henc]
        rw [hN2]

/-- Restricted idempotence of `normalize_url`: when the parsed query carries
no percent escape and no `+`, normalizing a normalized URL is a no-op. -/
theorem normalize_url_idem_restricted {s t : String} {u : ParsedUrl}
    (hp : parseUrl s.data = some u)
    (hq : ∀ q, u.query = some q → '%' ∉ q ∧ '+' ∉ q)
    (ht : normalize_url s = Except.ok t) :
    normalize_url t = Except.ok t := by
  have hwf := parse_wf hp
  obtain ⟨hwfN, hfN, hfix⟩ := normalizeParsed_wf hwf hq
  have ht2 : t = String.mk (serializeUrl (normalizeParsed u)) := by
    unfold normalize_url at ht
    rw [hp] at ht
    simp only [] at ht
    injection ht with h2
    exact h2.symm
  subst ht2
  unfold normalize_url
  have hps : parseUrl (String.mk (serializeUrl (normalizeParsed u))).data =
      some (normalizeParsed u) := parse_serialize hwfN hfN
  rw [hps]
  simp only []
  rw [hfix]

theorem restore_submitted_subset (env : Aria2Env) :
    ∀ (tasks : List DownloadTask) (x : Nat),
      x ∈ (restore_tasks env tasks).submitted → x ∈ tasks.map DownloadTask.id := by
  intro tasks
  induction tasks with
  | nil => intro x hx; simp [restore_tasks] at hx
  | cons task rest ih =>
    intro x hx
    unfold restore_tasks at hx
    by_cases hfin : task.status.is_finished = true
    · rw [if_pos hfin] at hx
      exact List.mem_cons_of_mem _ (ih x hx)
    · rw [if_neg hfin] at hx
      cases hr : restore_single_task env task with
      | ok gid =>
        rw [hr] at hx
        rcases List.mem_cons.mp hx with hx | hx
        · rw [List.map_cons]
          exact List.mem_cons.mpr (Or.inl hx)
        · rw [List.map_cons]
          exact List.mem_cons.mpr (Or.inr (ih x hx))
      | error e =>
        rw [hr] at hx
        rcases List.mem_cons.mp hx with hx | hx
        · rw [List.map_cons]
          exact List.mem_cons.mpr (Or.inl hx)
        · rw [List.map_cons]
          exact List.mem_cons.mpr (Or.inr (ih x hx))

theorem restore_mapping_subset (env : Aria2Env) :
    ∀ (tasks : List DownloadTask) (x : Nat) (gid : String),
      (x, gid) ∈ (restore_tasks env tasks).task_mapping → x ∈ tasks.map DownloadTask.id := by
  intro tasks
  induction tasks with
  | nil => intro x gid hx; simp [restore_tasks] at hx
  | cons task rest ih =>
    intro x gid hx
    unfold restore_tasks at hx
    by_cases hfin : task.status.is_finished = true
    · rw [if_pos hfin] at hx
      exact List.mem_cons_of_mem _ (ih x gid hx)
    · rw [if_neg hfin] at hx
      cases hr : restore_single_task env task with
      | ok g =>
        rw [hr] at hx
        rcases List.mem_cons.mp hx with hx | hx
        · rw [List.map_cons]
          exact List.mem_cons.mpr (Or.inl (congrArg Prod.fst hx))
        · rw [List.map_cons]
          exact List.mem_cons.mpr (Or.inr (ih x gid hx))
      | error e =>
        rw [hr] at hx
        exact List.mem_cons_of_mem _ (ih x gid hx)

theorem restore_terminal_skipped (env : Aria2Env) :
    ∀ (tasks : List DownloadTask) (t : DownloadTask), t ∈ tasks →
      t.status.is_finished = true → (tasks.map DownloadTask.id).Nodup →
      t.id ∉ (restore_tasks env tasks).submitted ∧
      ∀ gid, (t.id, gid) ∉ (restore_tasks env tasks).task_mapping := by
  intro tasks
  induction tasks with
  | nil => intro t ht; simp at ht
  | cons task rest ih =>
    intro t ht hfin hnod
    simp only [List.map_cons, List.nodup_cons] at hnod
    rcases List.mem_cons.mp ht with rfl | hmem
    · -- t is the head; its id occurs in no later task by Nodup
      unfold restore_tasks
      rw [if_pos hfin]
      constructor
      · intro hc
        exact hnod.1 (restore_submitted_subset env rest t.id hc)
      · intro gid hc
        exact hnod.1 (restore_mapping_subset env rest t.id gid hc)
    · have hid : t.id ≠ task.id := by
        intro hc
        exact hnod.1 (hc ▸ List.mem_map_of_mem DownloadTask.id hmem)
      have hrec := ih t hmem hfin hnod.2
      unfold restore_tasks
      by_cases hfin2 : task.status.is_finished = true
      · rw [if_pos hfin2]
        exact hrec
      · rw [if_neg hfin2]
        cases hr : restore_single_task env task with
        | ok gid =>
          refine ⟨?_, ?_⟩
          · intro hc
            rcases List.mem_cons.mp hc with hc | hc
            · exact hid hc
            · exact hrec.1 hc
          · intro g hc
            rcases List.mem_cons.mp hc with hc | hc
            · exact hid (congrArg Prod.fst hc)
            · exact hrec.2 g hc
        | error e =>
          refine ⟨?_, hrec.2⟩
          intro hc
          rcases List.mem_cons.mp hc with hc | hc
          · exact hid hc
          · exact hrec.1 hc

theorem restore_nonterminal_outcome (env : Aria2Env) :
    ∀ (tasks : List DownloadTask) (t : DownloadTask), t ∈ tasks →
      t.status.is_finished = false →
      t.id ∈ (restore_tasks env tasks).submitted ∧
      ((∃ gid, restore_single_task env t = .ok gid ∧
          (t.id, gid) ∈ (restore_tasks env tasks).task_mapping) ∨
       (∃ e, restore_single_task env t = .error e ∧
          { t with status := .Failed ("Recovery failed: " ++ e) } ∈
            (restore_tasks env tasks).saved_failed)) := by
  intro tasks
  induction tasks with
  | nil => intro t ht; simp at ht
  | cons task rest ih =>
    intro t ht hfin
    rcases List.mem_cons.mp ht with rfl | hmem
    · unfold restore_tasks
      rw [if_neg (by simp [hfin])]
      cases hr : restore_single_task env t with
      | ok gid =>
        exact ⟨List.mem_cons_self _ _, Or.inl ⟨gid, rfl, List.mem_cons_self _ _⟩⟩
      | error e =>
        exact ⟨List.mem_cons_self _ _, Or.inr ⟨e, rfl, List.mem_cons_self _ _⟩⟩
    · have hrec := ih t hmem hfin
      unfold restore_tasks
      by_cases hfin2 : task.status.is_finished = true
      · rw [if_pos hfin2]
        exact hrec
      · rw [if_neg hfin2]
        cases hr : restore_single_task env task with
        | ok gid =>
          refine ⟨List.mem_cons_of_mem _ hrec.1, ?_⟩
          rcases hrec.2 with ⟨g, hg, hgm⟩ | ⟨e, he, hem⟩
          · exact Or.inl ⟨g, hg, List.mem_cons_of_mem _ hgm⟩
          · exact Or.inr ⟨e, he, hem⟩
        | error e2 =>
          refine ⟨List.mem_cons_of_mem _ hrec.1, ?_⟩
          rcases hrec.2 with ⟨g, hg, hgm⟩ | ⟨e, he, hem⟩
          · exact Or.inl ⟨g, hg, hgm⟩
          · exact Or.inr ⟨e, he, List.mem_cons_of_mem _ hem⟩

/-- C6 (amended: the failure message written by recovery is
`Recovery failed: <detail>`, with a capital R): recovery reads every
persisted task; a task whose persisted status is terminal (`is_finished`)
is never submitted to the adapter and gets no handle-map entry; every
non-terminal task is submitted, and either its new adapter handle is
recorded in the id→handle map or it is saved back with status
`Failed("Recovery failed: <detail>")` — no persisted task is silently
dropped.  `restore_single_task` consults the pause oracle exactly when the
persisted status was `Paused`. -/
theorem restore_tasks_spec (env : Aria2Env) (tasks : List DownloadTask) :
    (∀ t ∈ tasks, t.status.is_finished = true →
      (tasks.map DownloadTask.id).Nodup →
      t.id ∉ (restore_tasks env tasks).submitted ∧
      ∀ gid, (t.id, gid) ∉ (restore_tasks env tasks).task_mapping) ∧
    (∀ t ∈ tasks, t.status.is_finished = false →
      t.id ∈ (restore_tasks env tasks).submitted ∧
      ((∃ gid, restore_single_task env t = .ok gid ∧
          (t.id, gid) ∈ (restore_tasks env tasks).task_mapping) ∨
       (∃ e, restore_single_task env t = .error e ∧
          { t with status := .Failed ("Recovery failed: " ++ e) } ∈
            (restore_tasks env tasks).saved_failed))) ∧
    (∀ t rid tk, t.status ≠ .Paused →
      env.addDownload t.url t.target_path = .ok rid →
      env.getTask rid = .ok tk →
      restore_single_task env t = .ok (toString rid)) ∧
    (∀ t rid tk, t.status = .Paused →
      env.addDownload t.url t.target_path = .ok rid →
      env.getTask rid = .ok tk →
      (restore_single_task env t = .ok (toString rid) ↔
        env.pauseDownload rid = .ok ())) := by
  refine ⟨?_, ?_, ?_, ?_⟩
  · intro t ht hfin hnod
    exact restore_terminal_skipped env tasks t ht hfin hnod
  · intro t ht hfin
    exact restore_nonterminal_outcome env tasks t ht hfin
  · intro t rid tk hnp hadd hget
    simp [restore_single_task, hadd, hget, hnp]
  · intro t rid tk hp hadd hget
    cases hpd : env.pauseDownload rid with
    | ok u =>
      cases u
      simp [restore_single_task, hadd, hget, hp, hpd]
    | error e =>
      simp only [restore_single_task, hadd, hget, hp, hpd, if_pos]
      constructor
      · intro hc
        exact absurd hc (by simp)
      · intro hc
        exact absurd hc (by simp)

/-- The oracle of the C6 witness: the adapter accepts everything. -/
def okEnv : Aria2Env :=
  ⟨fun _ _ => .ok 42, fun _ => .ok (DownloadTask.mkNew 42 "u" "/p"), fun _ => .ok ()⟩

/-- The persisted store of the C6 witness: one completed, one downloading. -/
def mixedStore : List DownloadTask :=
  [{ id := 7, url := "c", target_path := "/c", status := .Completed },
   { id := 8, url := "d", target_path := "/d", status := .Downloading }]

/-- Witness for C6: the terminal task is skipped, the other submitted. -/
theorem restore_tasks_spec_witness :
    (7 : Nat) ∉ (restore_tasks okEnv mixedStore).submitted ∧
    (8 : Nat) ∈ (restore_tasks okEnv mixedStore).submitted :=
  ⟨((restore_tasks_spec okEnv mixedStore).1
      { id := 7, url := "c", target_path := "/c", status := .Completed }
      (by decide) (by decide) (by decide)).1,
   ((restore_tasks_spec okEnv mixedStore).2.1
      { id := 8, url := "d", target_path := "/d", status := .Downloading }
      (by decide) (by decide)).1⟩

/-- The C6 counterexample environment: the adapter rejects everything. -/
def failingEnv : Aria2Env :=
  ⟨fun _ _ => .error "boom", fun _ => .error "boom", fun _ => .error "boom"⟩

/-- The persisted task of the C6 counterexample. -/
def c6Task : DownloadTask :=
  { id := 7, url := "u", target_path := "/p", status := .Downloading }

/-- C6 counterexample: when recovery of a non-terminal task fails, the task
is saved back with message `Recovery failed: <detail>` (capital R), not the
`recovery failed: <detail>` the claim states; nothing carrying the
lowercase message is persisted. -/
theorem recovery_failed_message_counterexample :
    (restore_tasks failingEnv [c6Task]).saved_failed =
      [{ c6Task with status := .Failed "Recovery failed: boom" }] ∧
    DownloadStatus.Failed "Recovery failed: boom" ≠
      DownloadStatus.Failed "recovery failed: boom" ∧
    ∀ s ∈ (restore_tasks failingEnv [c6Task]).saved_failed,
      s.status ≠ .Failed ("recovery failed: " ++ "boom") := by
  refine ⟨by decide, by decide, by decide⟩

/-- The manager of the C5 witness: three active tasks, one queued task. -/
def fifoWitnessManager : TaskQueueManager :=
  ((((TaskQueueManager.mkNew.add_task "u0" "/p0").2.add_task "u1" "/p1").2.add_task
    "u2" "/p2").2.add_task "u3" "/p3").2

/-- Witness for C5: with three active tasks and one queued task, completing
an active task promotes exactly the queued head to `Downloading`. -/
theorem slot_release_promotes_fifo_head_witness :
    (fifoWitnessManager.complete_task 0).queued_tasks = [] ∧
    lookupA 3 (fifoWitnessManager.complete_task 0).active_tasks =
      some { DownloadTask.mkNew 3 "u3" "/p3" with status := .Downloading } :=
  slot_release_promotes_fifo_head.2.1 fifoWitnessManager 0
    (DownloadTask.mkNew 3 "u3" "/p3") [] (by decide) (by decide)

/-- The registry state after the first submission of the C1 scenario. -/
def dupScenarioM1 : TaskQueueManager :=
  (TaskQueueManager.mkNew.add_task "https://ex.com/f?b=2&a=1#x" "/d/f").2

/-- The registry state after the second submission of the C1 scenario. -/
def dupScenarioM2 : TaskQueueManager :=
  (dupScenarioM1.add_task "https://ex.com/f?a=1&b=2" "/d/f").2

/-- C1 (code_bug evidence): with the default `ReuseExisting` policy,
submitting `https://ex.com/f?b=2&a=1#x` and then the canonically equal
`https://ex.com/f?a=1&b=2` for the same target path yields two distinct
fresh task ids and a registry of two tasks — duplicate detection compares
raw URL strings, although `normalize_url` maps both URLs to the same
canonical form (and the repository's own documentation and tests require
canonical-fingerprint identity). -/
theorem raw_url_duplicate_detection_misses_canonical_equal :
    TaskQueueManager.mkNew.add_download_with_policy
        "https://ex.com/f?b=2&a=1#x" "/d/f" DuplicatePolicy.default =
      .ok (.NewTask 0, dupScenarioM1) ∧
    dupScenarioM1.add_download_with_policy
        "https://ex.com/f?a=1&b=2" "/d/f" DuplicatePolicy.default =
      .ok (.NewTask 1, dupScenarioM2) ∧
    (0 : Nat) ≠ 1 ∧
    dupScenarioM2.list_tasks.length = 2 ∧
    normalize_url "https://ex.com/f?b=2&a=1#x" = normalize_url "https://ex.com/f?a=1&b=2" := by
  exact ⟨by rfl, by rfl, by decide, by decide, by rfl⟩

/-- Witness for C7: resubmitting the only registered (url, path) pair under
`FailIfDuplicate` is rejected with the existing id. -/
theorem fail_if_duplicate_spec_witness :
    (TaskQueueManager.mkNew.add_task "u" "/p").2.add_download_with_policy "u" "/p"
        .FailIfDuplicate =
      .error (.PolicyViolation 0 "Duplicate found but policy forbids reuse") :=
  (fail_if_duplicate_spec (TaskQueueManager.mkNew.add_task "u" "/p").2 "u" "/p"
      (by decide)).2.1 0 (by decide)

/-- C3 (amended): URL canonicalization by `normalize_url` satisfies
(i) idempotence restricted to inputs whose parsed query carries no `%`
escape and no `+` — without that restriction idempotence fails, see the
counterexample — (ii) any two parseable URLs whose parses agree on scheme,
host, port and path and whose decoded query-pair lists are permutations of
each other (in particular URLs differing only in fragment or only in
query-parameter order) canonicalize to byte-equal strings, and (iii) a URL
spelling out its scheme's default port (80 for http, 443 for https)
canonicalizes byte-equal to the same URL without the port. -/
theorem normalize_url_canonicalization_spec :
    (∀ (s t : String) (u : ParsedUrl), parseUrl s.data = some u →
        (∀ q, u.query = some q → '%' ∉ q ∧ '+' ∉ q) →
        normalize_url s = Except.ok t → normalize_url t = Except.ok t) ∧
    (∀ (x y : String) (u v : ParsedUrl), parseUrl x.data = some u →
        parseUrl y.data = some v → u.scheme = v.scheme → u.host = v.host →
        u.port = v.port → u.path = v.path → QueryEquiv u.query v.query →
        normalize_url x = normalize_url y) ∧
    (∀ (host pt : List Char) (query : Option (List Char)) (scheme : String) (dp : Nat),
        ((scheme = "http" ∧ dp = 80) ∨ (scheme = "https" ∧ dp = 443)) →
        host ≠ [] → (∀ c ∈ host, hostChar c = true) →
        (∀ c ∈ ('/' :: pt), pathChar c = true) →
        hasDotSegment ('/' :: pt) = false →
        (∀ q, query = some q → ∀ c ∈ q, queryChar c = true) →
        normalize_url (String.mk (scheme.data ++ ':' :: '/' :: '/' ::
            (host ++ ((':' :: natToChars dp) ++ (('/' :: pt) ++ qtailL query))))) =
          normalize_url (String.mk (scheme.data ++ ':' :: '/' :: '/' ::
            (host ++ (('/' :: pt) ++ qtailL query))))) := by
  refine ⟨?_, ?_, ?_⟩
  · intro s t u hp hq ht
    exact normalize_url_idem_restricted hp hq ht
  · intro x y u v hx hy hs hh hp hpath hq
    exact normalize_url_equiv x y u v hx hy hs hh hp hpath hq
  · intro host pt query scheme dp hdp hne hhost hpath hnodot hq
    have hpl1d : ∀ c ∈ ':' :: natToChars dp,
        (decide (c = '/') || decide (c = '?') || decide (c = '#')) = false := by
      intro c hc
      rcases List.mem_cons.mp hc with rfl | hc
      · decide
      · exact not_stop1_of_digit (natToChars_all_digit dp c hc)
    have hpl2d : takeUntil (fun c => c = ':') (host ++ ':' :: natToChars dp) =
        (host, ':' :: natToChars dp) :=
      takeUntil_append _ _ _ _ (fun c hc => not_colon_of_host (hhost c hc)) (by decide)
    have hpl2n : takeUntil (fun c => c = ':') (host ++ ([] : List Char)) =
        (host, ([] : List Char)) := by
      rw [List.append_nil]
      exact takeUntil_no_stop _ host (fun c hc => not_colon_of_host (hhost c hc))
    have hport : parsePort scheme (':' :: natToChars dp) = some none :=
      parsePort_default scheme dp hdp
    have hra := parseAfterScheme_roundtrip scheme host (':' :: natToChars dp) none pt query
      hne hhost hpl1d hpl2d hport hpath hnodot hq
    have hrb := parseAfterScheme_roundtrip scheme host [] none pt query
      hne hhost (fun c hc => absurd hc (List.not_mem_nil c)) hpl2n
      (parsePort_none_of_port scheme) hpath hnodot hq
    rcases hdp with ⟨hs, _⟩ | ⟨hs, _⟩
    · subst hs
      have h1 : parseUrl (String.mk ("http".data ++ ':' :: '/' :: '/' ::
          (host ++ ((':' :: natToChars dp) ++ (('/' :: pt) ++ qtailL query))))).data =
          some ⟨"http", host, none, '/' :: pt, query, none⟩ := by
        show parseUrl ("http".data ++ ':' :: '/' :: '/' ::
          (host ++ ((':' :: natToChars dp) ++ (('/' :: pt) ++ qtailL query)))) = _
        rw [parseUrl_http]
        exact hra
      have h2 : parseUrl (String.mk ("http".data ++ ':' :: '/' :: '/' ::
          (host ++ (('/' :: pt) ++ qtailL query)))).data =
          some ⟨"http", host, none, '/' :: pt, query, none⟩ := by
        show parseUrl ("http".data ++ ':' :: '/' :: '/' ::
          (host ++ (('/' :: pt) ++ qtailL query))) = _
        rw [parseUrl_http]
        exact hrb
      unfold normalize_url
      rw [h1, h2]
    · subst hs
      have h1 : parseUrl (String.mk ("https".data ++ ':' :: '/' :: '/' ::
          (host ++ ((':' :: natToChars dp) ++ (('/' :: pt) ++ qtailL query))))).data =
          some ⟨"https", host, none, '/' :: pt, query, none⟩ := by
        show parseUrl ("https".data ++ ':' :: '/' :: '/' ::
          (host ++ ((':' :: natToChars dp) ++ (('/' :: pt) ++ qtailL query)))) = _
        rw [parseUrl_https]
        exact hra
      have h2 : parseUrl (String.mk ("https".data ++ ':' :: '/' :: '/' ::
          (host ++ (('/' :: pt) ++ qtailL query)))).data =
          some ⟨"https", host, none, '/' :: pt, query, none⟩ := by
        show parseUrl ("https".data ++ ':' :: '/' :: '/' ::
          (host ++ (('/' :: pt) ++ qtailL query))) = _
        rw [parseUrl_https]
        exact hrb
      unfold normalize_url
      rw [h1, h2]

/-- Witness for C3: a sorted-query URL is a `normalize_url` fixpoint
(idempotence at a query free of `%` and `+`); reordered-query and
fragment-bearing variants, and an explicit default port, canonicalize to
byte-equal outputs. -/
theorem normalize_url_canonicalization_spec_witness :
    normalize_url "https://ex.com/f?a=1&b=2" = Except.ok "https://ex.com/f?a=1&b=2" ∧
    normalize_url "https://ex.com/f?b=2&a=1#x" = normalize_url "https://ex.com/f?a=1&b=2" ∧
    normalize_url "http://ex.com:80/f" = normalize_url "http://ex.com/f" := by
  refine ⟨?_, ?_, ?_⟩
  · exact normalize_url_canonicalization_spec.1 "https://ex.com/f?b=2&a=1"
      "https://ex.com/f?a=1&b=2"
      ⟨"https", "ex.com".data, none, "/f".data, some "b=2&a=1".data, none⟩
      (by rfl)
      (by
        intro q2 hq2
        have h3 : "b=2&a=1".data = q2 := Option.some_inj.mp hq2
        rw [← h3]
        decide)
      (by rfl)
  · exact normalize_url_canonicalization_spec.2.1 "https://ex.com/f?b=2&a=1#x"
      "https://ex.com/f?a=1&b=2"
      ⟨"https", "ex.com".data, none, "/f".data, some "b=2&a=1".data, some ['x']⟩
      ⟨"https", "ex.com".data, none, "/f".data, some "a=1&b=2".data, none⟩
      (by rfl) (by rfl) rfl rfl rfl rfl
      (by
        show (queryPairs "b=2&a=1".data).Perm (queryPairs "a=1&b=2".data)
        decide)
  · have h := normalize_url_canonicalization_spec.2.2 "ex.com".data ['f'] none "http" 80
      (Or.inl ⟨rfl, rfl⟩) (by decide) (by decide) (by decide) (by decide)
      (fun q hq => nomatch hq)
    have e0 : natToChars 80 = ['8', '0'] := by
      unfold natToChars
      rw [if_neg (by norm_num)]
      rw [show Nat.digits 10 80 = [0, 8] from by simp]
      rfl
    have e1 : String.mk ("http".data ++ ':' :: '/' :: '/' ::
        ("ex.com".data ++ ((':' :: natToChars 80) ++ (('/' :: ['f']) ++ qtailL none)))) =
        "http://ex.com:80/f" := by
      rw [e0]
      rfl
    have e2 : String.mk ("http".data ++ ':' :: '/' :: '/' ::
        ("ex.com".data ++ (('/' :: ['f']) ++ qtailL none))) = "http://ex.com/f" := by rfl
    rw [e1, e2] at h
    exact h

end Burncloud
